import Mathlib

/-!
Shallow embedding of the reconciliation core of EVS_COTEJ_V3
(src/manual_db_v2_fixed.py, src/matcher_v2_extended.py, schema from
src/db_utils_v2.py `init_db`, SQLite branch).

Modelling conventions:
* The database state is four lists mirroring the SQLite tables
  `fisico`, `contabil`, `depara`, `conciliados`.
* The SQLite `conciliados` table has no UNIQUE constraint (init_db creates
  only the non-unique index `idx_conc_base_id`), so
  `INSERT OR IGNORE INTO conciliados` behaves as a plain insert; it is
  modelled as list append.
* Nullable integer columns are `Option Int`; `COALESCE(x, 0)` is `Option.getD 0`.
* A record's FRAG column is abstracted to the boolean "FRAG = 'Conciliado'",
  which is everything the embedded functions read or write of it
  (`_read_pending` tests `COALESCE(FRAG,'') <> 'Conciliado'`,
  `_bulk_insert_pairs` sets `FRAG='Conciliado'`, `undo_pairs` sets FRAG NULL).
* Strings are compared exactly; the *_NORM columns are produced uppercased by
  the importer, so SQLite's ASCII-case-insensitive LIKE coincides with the
  case-sensitive model on them.
-/

namespace EVS

/-- The two sides of the reconciliation: physical register and accounting ledger. -/
inductive Base where
  | FIS
  | CTB
deriving DecidableEq, Repr

/-- One row of the `fisico` table, restricted to the columns read by the
embedded functions. -/
structure FisRec where
  id : Int
  nrbrm : Option Int
  descricao : String
  descNorm : String
  serieNorm : String
  modeloNorm : String
  tagNorm : String
  frag : Bool
deriving DecidableEq, Repr

/-- One row of the `contabil` table, restricted to the columns read by the
embedded functions. -/
structure CtbRec where
  id : Int
  nrbrm : Option Int
  inc : Option Int
  descricao : String
  descNorm : String
  serieNorm : String
  modeloNorm : String
  frag : Bool
deriving DecidableEq, Repr

/-- One row of the `depara` ledger table
(PAR_ID, ST_CONCILIACAO, ID_FISICO, ID_CONTABIL, NRBRM, INC_CONTABIL). -/
structure DeparaRow where
  parId : Int
  st : String
  idFisico : Int
  idContabil : Int
  nrbrm : Int
  incContabil : Option Int
deriving DecidableEq, Repr

/-- One row of the `conciliados` lock table (BASE, ID, PAR_ID). -/
structure ConcRow where
  base : Base
  recId : Int
  parId : Int
deriving DecidableEq, Repr

/-- The database state: the four tables the reconciliation core mutates. -/
structure DB where
  fisico : List FisRec
  contabil : List CtbRec
  depara : List DeparaRow
  conciliados : List ConcRow
deriving DecidableEq, Repr

/-- Test `SELECT 1 FROM conciliados WHERE BASE=? AND ID=? LIMIT 1` is nonempty. -/
def lockedOn (db : DB) (b : Base) (i : Int) : Bool :=
  db.conciliados.any (fun c => c.base = b && c.recId = i)

/-- Embeds `SELECT ... FROM contabil WHERE ID=?` followed by `fetchone()`. -/
def lookupCtb (db : DB) (i : Int) : Option CtbRec :=
  db.contabil.find? (fun c => c.id = i)

/-- Embeds `SELECT ... FROM fisico WHERE ID=?` followed by `fetchone()`. -/
def lookupFis (db : DB) (i : Int) : Option FisRec :=
  db.fisico.find? (fun f => f.id = i)

/-- Embeds `SELECT COALESCE(MAX(PAR_ID),0) FROM depara`. -/
def maxParId (db : DB) : Int :=
  db.depara.foldl (fun m r => max m r.parId) 0

/-- PendingCounts dataclass of manual_db_v2_fixed.py. -/
structure PendingCounts where
  fis : Nat
  ctb : Nat
deriving DecidableEq, Repr

/-- Embeds `get_counts`: rows of each base table with no lock row in
`conciliados` for that side. -/
def get_counts (db : DB) : PendingCounts :=
  { fis := (db.fisico.filter (fun f => !lockedOn db .FIS f.id)).length
    ctb := (db.contabil.filter (fun t => !lockedOn db .CTB t.id)).length }

/-! ## save_pairs (manual_db_v2_fixed.py lines 483-613) -/

/-- Loop state of `save_pairs`: the rows to be inserted at the end of the
transaction, the two local id sets (which the source populates but never
consults — they are carried here exactly as the source does), the number of
saved pairs and the next PAR_ID. -/
structure SaveAcc where
  deparaRows : List DeparaRow
  concRows : List ConcRow
  pendingFis : List Int
  pendingCtb : List Int
  saved : Nat
  nextParId : Int
deriving Repr

/-- One iteration of the `save_pairs` loop over the input pairs.  The lock
checks read the `conciliados` table as of the start of the call (all inserts
are deferred to the end of the loop, inside the same transaction). -/
def savePairsStep (db : DB) (st : String) (acc : SaveAcc) (p : Int × Int) : SaveAcc :=
  let fisId := p.1
  let ctbId := p.2
  if fisId ≤ 0 ∧ ctbId ≤ 0 then acc
  else if fisId > 0 ∧ lockedOn db .FIS fisId then acc
  else if ctbId > 0 ∧ lockedOn db .CTB ctbId then acc
  else
    let info : Option (Int × Option Int) :=
      if ctbId > 0 then
        (lookupCtb db ctbId).map (fun c => (c.nrbrm.getD 0, some (c.inc.getD 0)))
      else
        (lookupFis db fisId).map (fun f => (f.nrbrm.getD 0, none))
    match info with
    | none => acc
    | some (nrbrm, incCtb) =>
      -- the source re-runs the same two conciliados lookups a second time;
      -- they read the same unchanged table, so they are the same tests
      if fisId > 0 ∧ lockedOn db .FIS fisId then acc
      else if ctbId > 0 ∧ lockedOn db .CTB ctbId then acc
      else
        { deparaRows := acc.deparaRows ++
            [⟨acc.nextParId, st, fisId, ctbId, nrbrm, incCtb⟩]
          concRows := acc.concRows ++
            (if fisId > 0 then [⟨Base.FIS, fisId, acc.nextParId⟩] else []) ++
            (if ctbId > 0 then [⟨Base.CTB, ctbId, acc.nextParId⟩] else [])
          pendingFis := if fisId > 0 then acc.pendingFis ++ [fisId] else acc.pendingFis
          pendingCtb := if ctbId > 0 then acc.pendingCtb ++ [ctbId] else acc.pendingCtb
          saved := acc.saved + 1
          nextParId := acc.nextParId + 1 }

/-- Embeds `save_pairs(con, pairs, st_conciliacao)`: returns the saved count
and the new database state. -/
def save_pairs (db : DB) (pairs : List (Int × Int)) (st : String) : Nat × DB :=
  if pairs = [] then (0, db)
  else
    let acc := pairs.foldl (savePairsStep db st)
      ⟨[], [], [], [], 0, maxParId db + 1⟩
    (acc.saved,
      { db with
          depara := db.depara ++ acc.deparaRows
          conciliados := db.conciliados ++ acc.concRows })

/-! ## save_pairs_with_family (lines 618-767) -/

/-- Python `(s or "").strip().upper()` for the ASCII origin tags: drop
surrounding whitespace and uppercase. -/
def pyStripUpper (s : String) : String :=
  String.mk
    (((s.data.dropWhile Char.isWhitespace).reverse.dropWhile
        Char.isWhitespace).reverse.map Char.toUpper)

/-- Embeds `_child_status_for_origin`. -/
def child_status_for_origin (origin : String) : String :=
  let o := pyStripUpper origin
  if o = "MANUAL" then "CM - INC"
  else if o = "DIRETA" then "CD - INC"
  else if o = "NÃO CHAPEÁVEL" ∨ o = "NAO CHAPEAVEL" then "CN - INC"
  else origin

/-- Loop state of `save_pairs_with_family`: as `SaveAcc`, plus the list of
(NRBRM, physical anchor) captured for the propagation phase. -/
structure FamAcc where
  deparaRows : List DeparaRow
  concRows : List ConcRow
  pendingFis : List Int
  pendingCtb : List Int
  involved : List (Int × Int)
  saved : Nat
  nextParId : Int
deriving Repr

/-- One iteration of the first loop of `save_pairs_with_family` over the input
pairs.  Unlike `save_pairs`, the accounting-side check also consults the local
`pending_ctb_ids` set. -/
def saveFamilyStep (db : DB) (st childStatus : String) (acc : FamAcc) (p : Int × Int) :
    FamAcc :=
  let fisId := p.1
  let ctbId := p.2
  if fisId ≤ 0 ∧ ctbId ≤ 0 then acc
  else if fisId > 0 ∧ lockedOn db .FIS fisId then acc
  else if ctbId > 0 ∧ (ctbId ∈ acc.pendingCtb ∨ lockedOn db .CTB ctbId) then acc
  else
    let info : Option (Int × Option Int × List (Int × Int)) :=
      if ctbId > 0 then
        (lookupCtb db ctbId).map (fun c =>
          (c.nrbrm.getD 0, some (c.inc.getD 0), acc.involved ++ [(c.nrbrm.getD 0, fisId)]))
      else
        (lookupFis db fisId).map (fun f => (f.nrbrm.getD 0, none, acc.involved))
    match info with
    | none => acc
    | some (nrbrm, incCtb, involved) =>
      let stRow := if ctbId > 0 ∧ incCtb.getD 0 ≠ 0 then childStatus else st
      { deparaRows := acc.deparaRows ++ [⟨acc.nextParId, stRow, fisId, ctbId, nrbrm, incCtb⟩]
        concRows := acc.concRows ++
          (if fisId > 0 then [⟨Base.FIS, fisId, acc.nextParId⟩] else []) ++
          (if ctbId > 0 then [⟨Base.CTB, ctbId, acc.nextParId⟩] else [])
        pendingFis := if fisId > 0 then acc.pendingFis ++ [fisId] else acc.pendingFis
        pendingCtb := if ctbId > 0 then acc.pendingCtb ++ [ctbId] else acc.pendingCtb
        involved := involved
        saved := acc.saved + 1
        nextParId := acc.nextParId + 1 }

/-- Stable insertion of `x` into a sorted list under the strict order `lt`:
`x` goes before the first element not strictly below it. -/
def insByLt (lt : α → α → Bool) (x : α) : List α → List α
  | [] => [x]
  | y :: ys => if lt y x then y :: insByLt lt x ys else x :: y :: ys

/-- Stable insertion sort under the strict order `lt`. -/
def sortByLt (lt : α → α → Bool) : List α → List α
  | [] => []
  | x :: xs => insByLt lt x (sortByLt lt xs)

/-- Embeds `SELECT ID, COALESCE(INC,0) FROM contabil WHERE COALESCE(NRBRM,0)=?
ORDER BY COALESCE(INC,0), ID` (a stable sort on the (INC, ID) key). -/
def familyRows (db : DB) (nrbrm : Int) : List (Int × Int) :=
  sortByLt (fun a b => a.2 < b.2 || (a.2 = b.2 && a.1 < b.1))
    ((db.contabil.filter (fun c => c.nrbrm.getD 0 = nrbrm)).map
      (fun c => (c.id, c.inc.getD 0)))

/-- One insertion attempt of the propagation phase for one family member. -/
def famPropStep (db : DB) (st childStatus : String) (nrbrm fisAnchor : Int)
    (acc : FamAcc) (m : Int × Int) : FamAcc :=
  let ctbId := m.1
  let incVal := m.2
  if ctbId ∈ acc.pendingCtb ∨ lockedOn db .CTB ctbId then acc
  else
    let stRow := if incVal ≠ 0 then childStatus else st
    { acc with
        deparaRows := acc.deparaRows ++
          [⟨acc.nextParId, stRow, fisAnchor, ctbId, nrbrm, some incVal⟩]
        concRows := acc.concRows ++
          (if fisAnchor > 0 then [⟨Base.FIS, fisAnchor, acc.nextParId⟩] else []) ++
          [⟨Base.CTB, ctbId, acc.nextParId⟩]
        pendingFis := if fisAnchor > 0 then acc.pendingFis ++ [fisAnchor] else acc.pendingFis
        pendingCtb := acc.pendingCtb ++ [ctbId]
        saved := acc.saved + 1
        nextParId := acc.nextParId + 1 }

/-- The propagation phase for one involved (NRBRM, anchor) entry. -/
def famPropagate (db : DB) (st childStatus : String) (acc : FamAcc)
    (inv : Int × Int) : FamAcc :=
  let nrbrm := inv.1
  let fisAnchor := inv.2
  if nrbrm ≤ 0 then acc
  else (familyRows db nrbrm).foldl (famPropStep db st childStatus nrbrm fisAnchor) acc

/-- Embeds `save_pairs_with_family(con, pairs, st_conciliacao)`. -/
def save_pairs_with_family (db : DB) (pairs : List (Int × Int)) (st : String) :
    Nat × DB :=
  if pairs = [] then (0, db)
  else
    let childStatus := child_status_for_origin st
    let acc0 := pairs.foldl (saveFamilyStep db st childStatus)
      ⟨[], [], [], [], [], 0, maxParId db + 1⟩
    let acc := acc0.involved.foldl (famPropagate db st childStatus) acc0
    (acc.saved,
      { db with
          depara := db.depara ++ acc.deparaRows
          conciliados := db.conciliados ++ acc.concRows })

/-! ## undo_pairs (lines 787-949) -/

/-- Return-value dictionary of `undo_pairs`. -/
structure UndoOut where
  removedDepara : Nat
  removedConc : Nat
  unmarkedFis : Nat
  unmarkedCtb : Nat
deriving DecidableEq, Repr

/-- Insertion into a Python `set`, modelled as append-if-absent (only
membership of the result is ever observed). -/
def insertSet (s : List Int) (x : Int) : List Int :=
  if x ∈ s then s else s ++ [x]

/-- Embeds the normalisation prologue of `undo_pairs`: drop duplicate input
pairs (by a `seen` set) and pairs with both sides ≤ 0. -/
def normUndoPairs (pairs : List (Int × Int)) : List (Int × Int) :=
  (pairs.foldl
    (fun (st : List (Int × Int) × List (Int × Int)) p =>
      if p ∈ st.1 then st
      else if p.1 ≤ 0 ∧ p.2 ≤ 0 then (st.1 ++ [p], st.2)
      else (st.1 ++ [p], st.2 ++ [p]))
    ([], [])).2

/-- The three id sets `undo_pairs` accumulates before deleting. -/
structure UndoSets where
  parIds : List Int
  fisIds : List Int
  ctbIds : List Int
deriving Repr

/-- One iteration of the PAR_ID discovery loop of `undo_pairs`.  The depara
NRBRM column is written as an integer by every embedded writer, so
`COALESCE(NRBRM,0)` is just the stored value. -/
def undoCollect (db : DB) (s : UndoSets) (p : Int × Int) : UndoSets :=
  let fisId := p.1
  let ctbId := p.2
  let s :=
    { s with
        fisIds := if fisId > 0 then insertSet s.fisIds fisId else s.fisIds
        ctbIds := if ctbId > 0 then insertSet s.ctbIds ctbId else s.ctbIds }
  let rows : List Int :=
    if fisId > 0 ∧ ctbId > 0 then
      let rows0 := (db.depara.filter
        (fun r => r.idFisico = fisId ∧ r.idContabil = ctbId)).map (·.parId)
      match lookupCtb db ctbId with
      | none => rows0
      | some fam =>
        if fam.nrbrm.getD 0 > 0 ∧ fam.inc.getD 0 = 0 then
          rows0 ++ (db.depara.filter
            (fun (r : DeparaRow) =>
              r.nrbrm = fam.nrbrm.getD 0 ∧ r.idFisico = fisId)).map (·.parId)
        else rows0
    else if fisId > 0 then
      (db.depara.filter (fun r => r.idFisico = fisId)).map (·.parId)
    else
      let rows0 := (db.depara.filter (fun r => r.idContabil = ctbId)).map (·.parId)
      match lookupCtb db ctbId with
      | none => rows0
      | some fam =>
        if fam.nrbrm.getD 0 > 0 ∧ fam.inc.getD 0 = 0 then
          rows0 ++ (db.depara.filter
            (fun (r : DeparaRow) => r.nrbrm = fam.nrbrm.getD 0)).map (·.parId)
        else rows0
  { s with parIds := rows.foldl insertSet s.parIds }

/-- Embeds `undo_pairs(con, pairs)`: removes the resolved depara rows, the
corresponding lock rows, clears the FRAG marker on impacted records, and
returns the per-category counts. -/
def undo_pairs (db : DB) (pairs : List (Int × Int)) : UndoOut × DB :=
  if pairs = [] then (⟨0, 0, 0, 0⟩, db)
  else
    let normPairs := normUndoPairs pairs
    if normPairs = [] then (⟨0, 0, 0, 0⟩, db)
    else
      let s0 : UndoSets := normPairs.foldl (undoCollect db) ⟨[], [], []⟩
      let impacted := db.depara.filter (fun r => r.parId ∈ s0.parIds)
      let s : UndoSets :=
        { s0 with
            fisIds := (impacted.filterMap
              (fun (r : DeparaRow) =>
                if r.idFisico > 0 then some r.idFisico else none)).foldl
                insertSet s0.fisIds
            ctbIds := (impacted.filterMap
              (fun (r : DeparaRow) =>
                if r.idContabil > 0 then some r.idContabil else none)).foldl
                insertSet s0.ctbIds }
      let depara2 := db.depara.filter (fun r => !(r.parId ∈ s.parIds))
      let conc1 := db.conciliados.filter (fun c => !(c.parId ∈ s.parIds))
      let conc2 := conc1.filter (fun c => !(c.base = Base.FIS ∧ c.recId ∈ s.fisIds))
      let conc3 := conc2.filter (fun c => !(c.base = Base.CTB ∧ c.recId ∈ s.ctbIds))
      let out : UndoOut :=
        { removedDepara := db.depara.length - depara2.length
          removedConc := (db.conciliados.length - conc1.length) +
            (conc1.length - conc2.length) + (conc2.length - conc3.length)
          unmarkedFis := (db.fisico.filter (fun f => f.id ∈ s.fisIds)).length
          unmarkedCtb := (db.contabil.filter (fun c => c.id ∈ s.ctbIds)).length }
      let unmarkFis : FisRec → FisRec := fun f =>
        if f.id ∈ s.fisIds then { f with frag := false } else f
      let unmarkCtb : CtbRec → CtbRec := fun c =>
        if c.id ∈ s.ctbIds then { c with frag := false } else c
      (out,
        ({ fisico := db.fisico.map unmarkFis
           contabil := db.contabil.map unmarkCtb
           depara := depara2
           conciliados := conc3 } : DB))

/-! ## matcher_v2_extended.py: pending reads, rank pairing, bulk insert -/

/-- Embeds `_read_pending(conn, "fisico", "FIS", cols)`: rows whose FRAG is
not 'Conciliado' and which have no FIS lock row. -/
def readPendingFis (db : DB) : List FisRec :=
  db.fisico.filter (fun f => !f.frag && !lockedOn db .FIS f.id)

/-- Embeds `_read_pending(conn, "contabil", "CTB", cols)`. -/
def readPendingCtb (db : DB) : List CtbRec :=
  db.contabil.filter (fun c => !c.frag && !lockedOn db .CTB c.id)

/-- Embeds the `groupby(key)["ID"].rank(method="first")` step of
`_pair_1to1_by_value`: each (id, key) row, in frame order, receives rank
1 + the number of rows of the same key whose ID is smaller, or equal with an
earlier position. -/
def withRank (rows : List (Int × Int)) : List (Int × Int × Nat) :=
  rows.enum.map (fun e =>
    (e.2.1, e.2.2,
      1 + (rows.enum.filter (fun q =>
        q.2.2 = e.2.2 ∧ (q.2.1 < e.2.1 ∨ (q.2.1 = e.2.1 ∧ q.1 < e.1)))).length))

/-- Embeds the merge of `_pair_1to1_by_value`: inner join on (key, rank),
left frame order, producing (ID_FISICO, ID_CONTABIL, NRBRM-of-left). -/
def pair1to1 (fs cs : List (Int × Int)) : List (Int × Int × Int) :=
  (withRank fs).flatMap (fun f =>
    ((withRank cs).filter (fun c => c.2.1 = f.2.1 ∧ c.2.2 = f.2.2)).map
      (fun c => (f.1, c.1, f.2.1)))

/-- The rank a row at a given enumerated position receives in `withRank`:
1 plus the number of rows of the same key that are smaller in the
(ID, position) lexicographic order. -/
def rankOf (rows : List (Int × Int)) (e : Nat × (Int × Int)) : Nat :=
  1 + (rows.enum.filter (fun q =>
    q.2.2 = e.2.2 ∧ (q.2.1 < e.2.1 ∨ (q.2.1 = e.2.1 ∧ q.1 < e.1)))).length

/-- One standard-output row of a rule's pairing, as consumed by
`_bulk_insert_pairs` (ID_FISICO, ID_CONTABIL, NRBRM, INC_CONTABIL). -/
structure PairRow where
  idFisico : Int
  idContabil : Int
  nrbrm : Int
  incContabil : Int
deriving DecidableEq, Repr

/-- Embeds `_bulk_insert_pairs(conn, pairs, st)`: fresh PAR_IDs from
MAX(PAR_ID)+1, one depara row per pair, a FIS lock row only when
ID_FISICO > 0 and always a CTB lock row (plain inserts: the SQLite
`conciliados` table has no UNIQUE constraint), and FRAG marking of the
referenced records.  The input rows are already integral in the model, so
the numeric coercion prologue is the identity. -/
def bulk_insert_pairs (db : DB) (pairs : List PairRow) (st : String) : Nat × DB :=
  if pairs = [] then (0, db)
  else
    let start := maxParId db + 1
    let depRows := pairs.enum.map (fun e =>
      (⟨start + (e.1 : Int), st, e.2.idFisico, e.2.idContabil, e.2.nrbrm,
        some e.2.incContabil⟩ : DeparaRow))
    let concRows := pairs.enum.flatMap (fun e =>
      (if e.2.idFisico > 0 then [(⟨Base.FIS, e.2.idFisico, start + (e.1 : Int)⟩ : ConcRow)]
       else []) ++
      [⟨Base.CTB, e.2.idContabil, start + (e.1 : Int)⟩])
    let fisMarked := pairs.filterMap
      (fun r => if r.idFisico > 0 then some r.idFisico else none)
    let ctbMarked := pairs.map (·.idContabil)
    (pairs.length,
      { fisico := db.fisico.map
          (fun f => if f.id ∈ fisMarked then { f with frag := true } else f)
        contabil := db.contabil.map
          (fun c => if c.id ∈ ctbMarked then { c with frag := true } else c)
        depara := db.depara ++ depRows
        conciliados := db.conciliados ++ concRows })

/-- MatchStats dataclass of matcher_v2_extended.py. -/
structure MatchStats where
  st : String
  candidatosFisico : Nat
  candidatosContabil : Nat
  conciliados : Nat
deriving DecidableEq, Repr

/-- Embeds `run_regra_nrbrm_pai(db_path)`: group-key (NRBRM) equality
restricted to accounting parents (INC = 0), rank-paired 1:1, then bulk
inserted with `INC_CONTABIL` forced to 0. -/
def run_regra_nrbrm_pai (db : DB) : MatchStats × DB :=
  let st := "NRBEM_FIS=NRBEM_CTB"
  let dfF := readPendingFis db
  let dfC := readPendingCtb db
  let candF := dfF.length
  let candC := dfC.length
  let fs := (dfF.filter (fun f => f.nrbrm.isSome)).map (fun f => (f.id, f.nrbrm.getD 0))
  let csRows := (dfC.filter (fun c => c.nrbrm.isSome)).filter (fun c => c.inc.getD 0 = 0)
  if fs = [] ∨ csRows = [] then (⟨st, candF, candC, 0⟩, db)
  else
    let prs := pair1to1 fs (csRows.map (fun c => (c.id, c.nrbrm.getD 0)))
    let pairRows := prs.map (fun p => (⟨p.1, p.2.1, p.2.2, 0⟩ : PairRow))
    let res := bulk_insert_pairs db pairRows st
    (⟨st, candF, candC, res.1⟩, res.2)

/-- Embeds `run_propagacao_incorporados(db_path)`: every depara row with
COALESCE(INC_CONTABIL,0)=0 is a parent; pending accounting children with
INC ≠ 0 are joined to the parents by NRBRM and bulk inserted as "CA - INC",
anchored to the parent's ID_FISICO. -/
def run_propagacao_incorporados (db : DB) : MatchStats × DB :=
  let st := "CA - INC"
  let pais := db.depara.filter (fun r => r.incContabil.getD 0 = 0)
  let candF := (pais.map (·.idFisico)).dedup.length
  let filhosAll := readPendingCtb db
  let candC := filhosAll.length
  if pais = [] ∨ filhosAll = [] then (⟨st, candF, candC, 0⟩, db)
  else
    let filhos := (filhosAll.filter (fun c => c.inc.getD 0 ≠ 0)).filter
      (fun c => c.nrbrm.isSome)
    if filhos = [] then (⟨st, candF, candC, 0⟩, db)
    else
      let m := filhos.flatMap (fun ch =>
        (pais.filter (fun p => p.nrbrm = ch.nrbrm.getD 0)).map (fun p =>
          (⟨p.idFisico, ch.id, ch.nrbrm.getD 0, ch.inc.getD 0⟩ : PairRow)))
      if m = [] then (⟨st, candF, candC, 0⟩, db)
      else
        let res := bulk_insert_pairs db m st
        (⟨st, candF, candC, res.1⟩, res.2)

/-! ## Similarity rule 6: _strip_noise_fields / _desc_attr_set (lines 266-308)

The regex `\b(MCA|MOD|SERIE|CAP|CAPACIDADE|TAG)\s*[:=]\s*.*?(?=\b(...)\b\s*[:=]|$)`
with IGNORECASE removes, from each labelled block (a label at a word boundary
followed by optional whitespace and ':' or '='), everything up to just before
the next such labelled block or the end of the string, substituting one space
per block.  The scanner below implements exactly that replacement.  Case
insensitivity is modelled by uppercasing first (the source uppercases right
after stripping; for ASCII the two orders agree), and word characters are
ASCII alphanumerics plus underscore. -/

/-- Word character for the regex word boundary. -/
def isWordChar (c : Char) : Bool := c.isAlphanum || c = '_'

/-- The label alternation of `_strip_noise_fields`, in source order. -/
def stopLabels : List (List Char) :=
  ["MCA".data, "MOD".data, "SERIE".data, "CAP".data, "CAPACIDADE".data, "TAG".data]

/-- Drop leading whitespace (the `\s*` of the pattern). -/
def dropSpaces (cs : List Char) : List Char := cs.dropWhile (fun c => c.isWhitespace)

/-- Does a labelled block start here: some label is a prefix, followed by
optional whitespace and ':' or '='? -/
def isLabelStart (cs : List Char) : Bool :=
  stopLabels.any (fun L =>
    L.isPrefixOf cs &&
      (match dropSpaces (cs.drop L.length) with
       | [] => false
       | c :: _ => c = ':' || c = '='))

/-- Advance over the lazy body `.*?` until the lookahead (a labelled block at
a word boundary) matches or the string ends; `prev` is the previous character,
used for the word boundary test. -/
def skipBody (prev : Char) (cs : List Char) : List Char :=
  match cs with
  | [] => []
  | c :: rest =>
    if !isWordChar prev && isLabelStart (c :: rest) then c :: rest
    else skipBody c rest

/-- Given a position where `isLabelStart` holds, consume the label, the
optional whitespace, the ':'/'=' and the following whitespace, then the lazy
body, returning the position where scanning resumes. -/
def resumeAfterLabel (cs : List Char) : List Char :=
  match (stopLabels.filterMap (fun L =>
    if L.isPrefixOf cs then
      match dropSpaces (cs.drop L.length) with
      | [] => none
      | c :: rs => if c = ':' ∨ c = '=' then some (dropSpaces rs) else none
    else none)).head? with
  | none => cs
  | some body =>
    match body with
    | [] => []
    | c :: rest => if isLabelStart (c :: rest) then c :: rest else skipBody c rest

/-- The substitution scan: copy characters, and at each word-boundary labelled
block emit one space and resume after its body.  `fuel` bounds the recursion;
one unit is spent per emitted character, and every block consumes at least its
label and colon, so `fuel = cs.length` always suffices. -/
def stripScan : Nat → Bool → List Char → List Char
  | 0, _, _ => []
  | _ + 1, _, [] => []
  | fuel + 1, prevIsWord, c :: rest =>
    if !prevIsWord && isLabelStart (c :: rest) then
      ' ' :: stripScan fuel false (resumeAfterLabel (c :: rest))
    else c :: stripScan fuel (isWordChar c) rest

/-- Embeds `_strip_noise_fields` composed with the subsequent `.upper()` of
`_desc_attr_set`: newlines become spaces, the string is uppercased, and every
labelled block is replaced by a space. -/
def stripNoiseFields (desc : String) : List Char :=
  let s := desc.data.map (fun c => if c = '\n' ∨ c = '\r' then ' ' else c)
  let u := s.map Char.toUpper
  stripScan u.length false u

/-- Token character of `re.findall(r"[A-Z0-9]+", s)` on the uppercased text. -/
def isTokChar (c : Char) : Bool := ('A' ≤ c && c ≤ 'Z') || ('0' ≤ c && c ≤ '9')

/-- Split into maximal runs of token characters (`re.findall(r"[A-Z0-9]+")`). -/
def tokenizeAux : List Char → List Char → List (List Char)
  | [], cur => if cur = [] then [] else [cur.reverse]
  | c :: rest, cur =>
    if isTokChar c then tokenizeAux rest (c :: cur)
    else if cur = [] then tokenizeAux rest [] else cur.reverse :: tokenizeAux rest []

/-- All tokens of a character list. -/
def tokenize (cs : List Char) : List (List Char) := tokenizeAux cs []

/-- Python `tok.isdigit()` for a nonempty ASCII token. -/
def isDigitTok (t : List Char) : Bool := t.all (fun c => '0' ≤ c && c ≤ '9')

/-- The attribute contributed by one token in `_desc_attr_set`: stop labels
are skipped, digit tokens of length ≥ 2 are kept raw, other tokens of length
≥ 3 are reduced to their 3-character prefix. -/
def attrOfToken (t : List Char) : Option String :=
  if (String.mk t) ∈ (["MCA", "MOD", "SERIE", "CAP", "CAPACIDADE", "TAG"] : List String) then
    none
  else if isDigitTok t then
    if 2 ≤ t.length then some (String.mk t) else none
  else if 3 ≤ t.length then some (String.mk (t.take 3)) else none

/-- Insertion into a Python `set` of strings, modelled as append-if-absent
(deduplicated, first-occurrence order; only membership and cardinality of the
result are meaningful, Python set iteration order is unspecified). -/
def insertStr (s : List String) (x : String) : List String :=
  if x ∈ s then s else s ++ [x]

/-- Embeds `_desc_attr_set(desc)`. -/
def descAttrSet (desc : String) : List String :=
  if desc = "" then []
  else ((tokenize (stripNoiseFields desc)).filterMap attrOfToken).foldl insertStr []

/-- The `row.get("DESCRICAO") or row.get("DESC") or row.get("DESC_NORM") or ""`
chain: DESCRICAO when nonempty, else DESC_NORM (the DESC and DESC_ORIG columns
do not exist in the schema). -/
def rowDesc (descricao descNorm : String) : String :=
  if descricao ≠ "" then descricao else descNorm

/-! ## Rule 6 inverted index, counts and greedy pairing
(load_candidates_auto02 lines 376-424, load_pairs_auto02 lines 1015-1072) -/

/-- The `inv.setdefault(a, []).append(cid)` insertion: Python dicts preserve
key insertion order, lists preserve append order. -/
def invInsert (inv : List (String × List Int)) (a : String) (cid : Int) :
    List (String × List Int) :=
  match inv with
  | [] => [(a, [cid])]
  | (b, l) :: rest =>
    if b = a then (b, l ++ [cid]) :: rest else (b, l) :: invInsert rest a cid

/-- The `inv.get(a, [])` lookup. -/
def invLookup (inv : List (String × List Int)) (a : String) : List Int :=
  match inv with
  | [] => []
  | (b, l) :: rest => if b = a then l else invLookup rest a

/-- Build the inverted index attribute → accounting ids, scanning the
accounting rows in frame order and each row's attribute set in order. -/
def buildInv (cs : List CtbRec) : List (String × List Int) :=
  cs.foldl (fun inv c =>
    (descAttrSet (rowDesc c.descricao c.descNorm)).foldl
      (fun inv2 a => invInsert inv2 a c.id) inv) []

/-- The `counts[cid] = counts.get(cid, 0) + 1` bump, insertion order kept. -/
def bumpCount (counts : List (Int × Nat)) (cid : Int) : List (Int × Nat) :=
  match counts with
  | [] => [(cid, 1)]
  | (c, n) :: rest =>
    if c = cid then (c, n + 1) :: rest else (c, n) :: bumpCount rest cid

/-- Build the per-physical-record shared-attribute counts: for each attribute
of the physical record, every accounting id indexed under it gets one bump,
ids in `used` being skipped (`load_pairs_auto02`; `load_candidates_auto02`
passes an empty `used`). -/
def buildCounts (inv : List (String × List Int)) (used : List Int)
    (fattrs : List String) : List (Int × Nat) :=
  fattrs.foldl (fun counts a =>
    (invLookup inv a).foldl
      (fun cts cid => if cid ∈ used then cts else bumpCount cts cid) counts) []

/-- The best-candidate selection loop of `load_pairs_auto02` rule 6: scan the
counts in insertion order keeping the first strict maximum with score ≥ 2. -/
def pickBest (counts : List (Int × Nat)) : Option Int :=
  (counts.foldl
    (fun (b : Option Int × Nat) e =>
      if 2 ≤ e.2 ∧ b.2 < e.2 then (some e.1, e.2) else b)
    (none, 0)).1

/-- One physical row of the greedy pairing loop: state is (used accounting
ids, pairs so far). -/
def greedy6Step (inv : List (String × List Int))
    (acc : List Int × List (Int × Int)) (f : FisRec) : List Int × List (Int × Int) :=
  let fattrs := descAttrSet (rowDesc f.descricao f.descNorm)
  if fattrs = [] then acc
  else
    match pickBest (buildCounts inv acc.1 fattrs) with
    | none => acc
    | some best => (acc.1 ++ [best], acc.2 ++ [(f.id, best)])

/-- Embeds the rule-6 pairing of `load_pairs_auto02` over the candidate
frames: greedy best-first in physical frame order.  The trailing
`pairs[:limit_pairs]` truncation and the display-frame reassembly are not
modelled; the theorems are about the constructed pairs. -/
def load_pairs_auto02_rule6 (dfF : List FisRec) (dfC : List CtbRec) :
    List (Int × Int) :=
  (dfF.foldl (greedy6Step (buildInv dfC)) ([], [])).2

/-- The participant marking of `load_candidates_auto02` rule 6: the accounting
ids whose shared-attribute count with the given physical row is at least 2
(`hits = [cid for cid, ct in counts.items() if ct >= 2]`). -/
def rule6Hits (dfC : List CtbRec) (f : FisRec) : List Int :=
  ((buildCounts (buildInv dfC) []
      (descAttrSet (rowDesc f.descricao f.descNorm))).filter
    (fun e => 2 ≤ e.2)).map (·.1)

/-! ## SQL LIKE and the containment rules (load_candidates_auto02 lines 426-450) -/

/-- Does the rest-matcher `f` accept some suffix of the text?  This is the
'%' case of LIKE matching: '%' absorbs any run of characters. -/
def sqlLikeAux (f : List Char → Bool) : List Char → Bool
  | [] => f []
  | c :: ts => f (c :: ts) || sqlLikeAux f ts

/-- SQL LIKE pattern matching: '%' matches any run of characters, '_' any
single character, anything else itself.  The *_NORM operands are produced
uppercased by the importer, so SQLite's ASCII case folding is the identity
here and matching is modelled case-sensitively. -/
def sqlLike : List Char → List Char → Bool
  | [], t => t.isEmpty
  | c :: ps, t =>
    if c = '%' then sqlLikeAux (sqlLike ps) t
    else
      match t with
      | [] => false
      | d :: ts => (c = '_' || c = d) && sqlLike ps ts

/-- The rule-1 join condition of auto02:
`LENGTH(f.SERIE_NORM) >= 4 AND t.DESC_NORM LIKE ('%' || f.SERIE_NORM || '%')`. -/
def auto02Rule1Cond (f : FisRec) (t : CtbRec) : Bool :=
  4 ≤ f.serieNorm.length &&
    sqlLike ('%' :: (f.serieNorm.data ++ ['%'])) t.descNorm.data

/-- The candidate pairs the rule-1 containment join yields: pending rows on
both sides, accounting parents only, join condition satisfied (base filters
empty, ORDER BY and LIMIT not modelled; membership is the meaningful
content). -/
def auto02CandidatePairs1 (db : DB) : List (Int × Int) :=
  db.fisico.flatMap (fun f =>
    (db.contabil.filter (fun t =>
      auto02Rule1Cond f t && !lockedOn db .FIS f.id && !lockedOn db .CTB t.id &&
        t.inc.getD 0 = 0)).map (fun t => (f.id, t.id)))

/-! ## Specification-side definitions and invariants -/

/-- The per-side lock ids: the record ids of the `conciliados` rows of one
side, in table order. -/
def lockIdsOn (db : DB) (b : Base) : List Int :=
  (db.conciliados.filter (fun c => c.base = b)).map (·.recId)

/-- Invariant of the lock table as the specification states it: no two rows
with the same (side, recordId). -/
def locksNodup (db : DB) : Prop :=
  (db.conciliados.map (fun c => (c.base, c.recId))).Nodup

instance (db : DB) : Decidable (locksNodup db) := by
  unfold locksNodup; infer_instance

/-- The positive physical ids of a batch, in batch order. -/
def posFst (pairs : List (Int × Int)) : List Int :=
  (pairs.map Prod.fst).filter (fun i => 0 < i)

/-- The positive accounting ids of a batch, in batch order. -/
def posSnd (pairs : List (Int × Int)) : List Int :=
  (pairs.map Prod.snd).filter (fun i => 0 < i)

/-- The record ids of the lock rows of one side, in row order. -/
def concSideIds (rows : List ConcRow) (b : Base) : List Int :=
  (rows.filter (fun c => c.base = b)).map (·.recId)

/-- The content of a ledger row apart from its PAR_ID:
(status, ID_FISICO, ID_CONTABIL, NRBRM, INC_CONTABIL). -/
def deparaTuple (r : DeparaRow) : String × Int × Int × Int × Option Int :=
  (r.st, r.idFisico, r.idContabil, r.nrbrm, r.incContabil)

/-- The `counts.get(cid, 0)` reading of the shared-attribute counts dict. -/
def lookupCount (counts : List (Int × Nat)) (cid : Int) : Nat :=
  ((counts.find? (fun e => e.1 = cid)).map (fun e => e.2)).getD 0

/-- The shared-signature count of two descriptions under the code's signature
extraction: the cardinality of the intersection of the two attribute sets
(both lists are deduplicated, so filtering one by membership in the other
computes the intersection size). -/
def sharedAttrCount (d1 d2 : String) : Nat :=
  ((descAttrSet d1).filter (fun a => a ∈ descAttrSet d2)).length

/-- The rule-6 similarity score between a physical and an accounting record:
shared signatures of their effective descriptions. -/
def rule6Score (f : FisRec) (c : CtbRec) : Nat :=
  sharedAttrCount (rowDesc f.descricao f.descNorm) (rowDesc c.descricao c.descNorm)

/-- What the greedy rule-6 allocator promises for each produced pair `p`,
given the pairs `pre` produced before it: `p` joins a physical row to an
unused accounting row of maximal shared-signature score (at least 2), and
within the counts dict (whose insertion order is first-seen order of the
candidates) every key before the chosen one holds a strictly smaller count. -/
def greedyEntrySpec (dfF : List FisRec) (dfC : List CtbRec)
    (pre : List (Int × Int)) (p : Int × Int) : Prop :=
  ∃ f ∈ dfF, ∃ c ∈ dfC, p = (f.id, c.id) ∧ 2 ≤ rule6Score f c ∧
    c.id ∉ pre.map Prod.snd ∧
    (∀ c2 ∈ dfC, c2.id ∉ pre.map Prod.snd → rule6Score f c2 ≤ rule6Score f c) ∧
    ∃ cts1 cts2, buildCounts (buildInv dfC) (pre.map Prod.snd)
        (descAttrSet (rowDesc f.descricao f.descNorm)) =
      cts1 ++ (c.id, rule6Score f c) :: cts2 ∧ ∀ e ∈ cts1, e.2 < rule6Score f c

/-- All-alphabetic ASCII token (on the uppercased text). -/
def isAlphaTok (t : List Char) : Bool := t.all (fun c => 'A' ≤ c && c ≤ 'Z')

/-- Modelled from the claim's words (C7): a signature is "the 3-character
prefix of an alphabetic token of length ≥ 3 or a raw numeric token of length
≥ 2", extracted after the same label-segment stripping and tokenization.
This is the specification-side definition, to be compared with the source's
`descAttrSet`, whose non-numeric branch accepts any alphanumeric token. -/
def specSignatureSet (desc : String) : List String :=
  ((tokenize (stripNoiseFields desc)).filterMap (fun t =>
    if isDigitTok t then
      if 2 ≤ t.length then some (String.mk t) else none
    else if isAlphaTok t && 3 ≤ t.length then some (String.mk (t.take 3))
    else none)).foldl insertStr []

/-- Shared signatures of two descriptions under the claim's definition. -/
def sharedSpecSigCount (d1 d2 : String) : Nat :=
  ((specSignatureSet d1).filter (fun a => a ∈ specSignatureSet d2)).length

/-! ## Concrete states used by the scenario claims -/

/-- A physical record holding only an id and a group key. -/
def mkFis (i n : Int) : FisRec := ⟨i, some n, "", "", "", "", "", false⟩

/-- An accounting record holding only an id, a group key and an increment. -/
def mkCtb (i n inc : Int) : CtbRec := ⟨i, some n, some inc, "", "", "", "", false⟩

/-- The imported state of the §8 scenario: physical {P1(100), P2(200)},
accounting {A1(100,0), A2(100,5), A3(200,0)} with ids 1, 2 / 11, 12, 13. -/
def scenarioC4 : DB :=
  ⟨[mkFis 1 100, mkFis 2 200], [mkCtb 11 100 0, mkCtb 12 100 5, mkCtb 13 200 0], [], []⟩

/-- The scenario state after the group-key rule and unattended propagation. -/
def scenarioC4Run : DB :=
  (run_propagacao_incorporados (run_regra_nrbrm_pai scenarioC4).2).2

/-- A state for the in-batch duplicate of `save_pairs`: two pending physical
records and one accounting record. -/
def batchDupDB : DB := ⟨[mkFis 1 100, mkFis 2 200], [mkCtb 10 0 0], [], []⟩

/-- A state for the in-batch physical duplicate of `save_pairs_with_family`:
one physical record, two accounting records with no group key. -/
def famDupDB : DB := ⟨[mkFis 1 100], [mkCtb 10 0 0, mkCtb 11 0 0], [], []⟩

/-- A state with one accounting parent and one child sharing group key 100. -/
def famAnchorDB : DB := ⟨[mkFis 1 100], [mkCtb 10 100 0, mkCtb 11 100 5], [], []⟩

/-- A state with two physical records and an accounting family of three rows
sharing group key 100 (parent 10, children 11 and 12). -/
def fam2DB : DB :=
  ⟨[mkFis 1 100, mkFis 2 100], [mkCtb 10 100 0, mkCtb 11 100 5, mkCtb 12 100 7], [], []⟩

/-- A state whose only physical record has id 0: the lock writer only locks
positive ids. -/
def zeroIdDB : DB := ⟨[mkFis 0 100], [mkCtb 11 100 0, mkCtb 12 100 0], [], []⟩

/-- A one-to-one state on which the group-key rule fires once: a re-run must
then find nothing. -/
def rerunDB : DB := ⟨[mkFis 1 100], [mkCtb 11 100 0], [], []⟩

/-- A physical record whose description has two mixed alphanumeric tokens. -/
def mixedTokFis : FisRec := ⟨1, none, "AB1C XY2Z", "", "", "", "", false⟩

/-- An accounting record with the same mixed-token description. -/
def mixedTokCtb : CtbRec := ⟨21, none, some 0, "AB1C XY2Z", "", "", "", false⟩

/-- A physical record whose normalized serial contains the LIKE wildcard '_'. -/
def wildcardFis : FisRec := ⟨1, none, "", "", "A_BC", "", "", false⟩

/-- An accounting record whose normalized description matches "A_BC" as a
LIKE pattern but does not contain it as a substring. -/
def wildcardCtb : CtbRec := ⟨21, none, some 0, "", "AXBC", "", "", false⟩

/-- The state pairing the wildcard serial with the near-miss description. -/
def wildcardDB : DB := ⟨[wildcardFis], [wildcardCtb], [], []⟩

/-- A physical chair record: signatures CAD, GIR, COU, PRE. -/
def cadeiraFis : FisRec := ⟨2, none, "CADEIRA GIRATORIA COURO PRETO", "", "", "", "", false⟩

/-- An accounting chair record sharing CAD, COU, PRE with `cadeiraFis`. -/
def cadeiraCtb : CtbRec := ⟨31, none, some 0, "CADEIRA OFFICE COURO PRETO", "", "", "", false⟩

/-- An accounting record sharing only CAD with `cadeiraFis`. -/
def cadeiraAzulCtb : CtbRec := ⟨32, none, some 0, "CADEIRA AZUL", "", "", "", false⟩

/-! # Theorems -/

/-- **C4** (counterexample): on the §8 scenario state, the group-key rule also
pairs P2 (group key 200) with A3 (group key 200, INC = 0), so the run does not
produce exactly the pairs (P1,A1) and (P1,A2), and the pending counts do not
drop to (1, 1). -/
theorem scenario_groupkey_counterexample :
    (2, 13) ∈ scenarioC4Run.depara.map (fun r => (r.idFisico, r.idContabil)) ∧
    get_counts scenarioC4Run ≠ ⟨1, 1⟩ := by
  exact ⟨by decide, by decide⟩

/-- **C4** (amended): the group-key rule pairs (P1,A1) and (P2,A3), the
unattended propagation adds (P1,A2) with the child tag "CA - INC", and the
pending counts drop from (2, 3) to (0, 0). -/
theorem scenario_groupkey_amended :
    scenarioC4Run.depara.map (fun r => (r.st, r.idFisico, r.idContabil)) =
      [("NRBEM_FIS=NRBEM_CTB", 1, 11), ("NRBEM_FIS=NRBEM_CTB", 2, 13),
        ("CA - INC", 1, 12)] ∧
    get_counts scenarioC4 = ⟨2, 3⟩ ∧ get_counts scenarioC4Run = ⟨0, 0⟩ :=
  ⟨rfl, rfl, rfl⟩

/-- **C2** (code bug): in one `save_pairs` call, a batch repeating the same
accounting id yields two ledger rows for that id (the local pending-id sets
are populated but never consulted), and in one `save_pairs_with_family` call a
batch repeating the same physical id yields two ledger rows for that id. -/
theorem inbatch_duplicates_written :
    (save_pairs batchDupDB [(1, 10), (2, 10)] "MANUAL").1 = 2 ∧
    ((save_pairs batchDupDB [(1, 10), (2, 10)] "MANUAL").2).depara.map
        (fun r => (r.idFisico, r.idContabil)) = [(1, 10), (2, 10)] ∧
    ((save_pairs_with_family famDupDB [(1, 10), (1, 11)] "MANUAL").2).depara.map
        (fun r => (r.idFisico, r.idContabil)) = [(1, 10), (1, 11)] :=
  ⟨rfl, rfl, rfl⟩

/-- **C1** (counterexample): committing one pair on an accounting parent with
one child through `save_pairs_with_family` inserts the shared physical anchor
once per family row, so from a state satisfying the lock-uniqueness invariant
the table ends with two (FIS, 1) rows: the invariant is not preserved. -/
theorem family_anchor_lock_duplicate :
    locksNodup famAnchorDB ∧
    ¬ locksNodup (save_pairs_with_family famAnchorDB [(1, 10)] "MANUAL").2 := by
  exact ⟨by decide, by decide⟩

/-- **C10** (counterexample): with two pairs of the same batch referencing the
same group key (pairs (1,10) and (2,11), all of family 100), the family
completion row for accounting record 12 is anchored to physical id 1 — the
anchor of the first involved pair — not to physical id 2 of the pair (2,11),
and no row (2,12) is inserted. -/
theorem family_shared_nrbrm_counterexample :
    ((save_pairs_with_family fam2DB [(1, 10), (2, 11)] "MANUAL").2).depara.map
        (fun r => (r.st, r.idFisico, r.idContabil)) =
      [("MANUAL", 1, 10), ("CM - INC", 2, 11), ("CM - INC", 1, 12)] ∧
    (2, 12) ∉ ((save_pairs_with_family fam2DB [(1, 10), (2, 11)] "MANUAL").2).depara.map
        (fun r => (r.idFisico, r.idContabil)) := by
  exact ⟨by decide, by decide⟩

/-- **C5** (counterexample): a physical record with id 0 is paired but never
locked (`_bulk_insert_pairs` writes a FIS lock row only for positive ids), so
re-running the group-key rule pairs it again: the second run creates one new
pair, not zero. -/
theorem rerun_rule_zero_id_counterexample :
    (run_regra_nrbrm_pai (run_regra_nrbrm_pai zeroIdDB).2).1.conciliados = 1 ∧
    (run_regra_nrbrm_pai (run_regra_nrbrm_pai zeroIdDB).2).1.conciliados ≠ 0 :=
  ⟨rfl, by decide⟩

/-- **C7** (counterexample): the descriptions "AB1C XY2Z" share the two code
signatures AB1 and XY2 (prefixes of mixed alphanumeric tokens), so the rule
marks the records as candidates, yet under the claim's signature definition
(alphabetic tokens only) they share no signature at all. -/
theorem similarity_mixed_token_counterexample :
    mixedTokCtb.id ∈ rule6Hits [mixedTokCtb] mixedTokFis ∧
    sharedSpecSigCount mixedTokFis.descricao mixedTokCtb.descricao = 0 := by
  exact ⟨by decide, by decide⟩

/-! ## LIKE-pattern lemmas for the containment rule -/

/-- The suffix scanner accepts iff the rest-matcher accepts some suffix. -/
theorem sqlLikeAux_iff (f : List Char → Bool) (t : List Char) :
    sqlLikeAux f t = true ↔ ∃ t2, t2 <:+ t ∧ f t2 = true := by
  induction t with
  | nil =>
    simp only [sqlLikeAux]
    constructor
    · intro h; exact ⟨[], List.suffix_refl [], h⟩
    · rintro ⟨t2, h2, hm⟩
      rw [List.suffix_nil.mp h2] at hm; exact hm
  | cons c ts ih =>
    simp only [sqlLikeAux, Bool.or_eq_true, ih]
    constructor
    · rintro (h | ⟨t2, h2, hm⟩)
      · exact ⟨c :: ts, List.suffix_refl _, h⟩
      · exact ⟨t2, h2.trans (List.suffix_cons c ts), hm⟩
    · rintro ⟨t2, h2, hm⟩
      rcases List.suffix_cons_iff.mp h2 with h | h
      · subst h; exact Or.inl hm
      · exact Or.inr ⟨t2, h, hm⟩

theorem sqlLike_lit_cons (c : Char) (hc : c ≠ '%') (ps t : List Char) :
    sqlLike (c :: ps) t =
      (match t with
       | [] => false
       | d :: ts => (c = '_' || c = d) && sqlLike ps ts) := by
  conv_lhs => unfold sqlLike
  simp [hc]

/-- A pattern that is a single '%' matches every text. -/
theorem sqlLike_pct_any (t : List Char) : sqlLike ['%'] t = true := by
  rw [show sqlLike ['%'] t = sqlLikeAux (sqlLike []) t from by unfold sqlLike; simp]
  exact (sqlLikeAux_iff _ t).mpr ⟨[], List.nil_suffix, rfl⟩

/-- A leading '%' matches iff the rest of the pattern matches some suffix. -/
theorem sqlLike_pct_iff (ps t : List Char) :
    sqlLike ('%' :: ps) t = true ↔ ∃ t2, t2 <:+ t ∧ sqlLike ps t2 = true := by
  rw [show sqlLike ('%' :: ps) t = sqlLikeAux (sqlLike ps) t from by unfold sqlLike; simp]
  exact sqlLikeAux_iff _ t

/-- For a literal text `s` (no '%', no '_'), the pattern `s ++ "%"` matches
exactly the texts with prefix `s`. -/
theorem sqlLike_lit_pct_iff (s : List Char) (hs : ∀ c ∈ s, c ≠ '%' ∧ c ≠ '_') (t : List Char) :
    sqlLike (s ++ ['%']) t = true ↔ s <+: t := by
  induction s generalizing t with
  | nil => simp [sqlLike_pct_any]
  | cons a s' ih =>
    have ha := hs a (List.mem_cons_self a s')
    have hs' : ∀ c ∈ s', c ≠ '%' ∧ c ≠ '_' := fun c hc => hs c (List.mem_cons_of_mem a hc)
    rw [List.cons_append, sqlLike_lit_cons a ha.1]
    cases t with
    | nil => simp
    | cons d ts =>
      simp only [ha.2, decide_False, Bool.false_or, Bool.and_eq_true, decide_eq_true_eq,
        ih hs', List.cons_prefix_cons]

/-- For a literal text `s`, the pattern `%s%` matches exactly the texts
containing `s` as a contiguous substring. -/
theorem sqlLike_infix_iff (s : List Char) (hs : ∀ c ∈ s, c ≠ '%' ∧ c ≠ '_') (t : List Char) :
    sqlLike ('%' :: (s ++ ['%'])) t = true ↔ s <:+: t := by
  rw [sqlLike_pct_iff]
  constructor
  · rintro ⟨t2, h2, hm⟩
    exact List.infix_iff_prefix_suffix.mpr ⟨t2, (sqlLike_lit_pct_iff s hs t2).mp hm, h2⟩
  · intro h
    rcases List.infix_iff_prefix_suffix.mp h with ⟨t2, hpre, hsuf⟩
    exact ⟨t2, hsuf, (sqlLike_lit_pct_iff s hs t2).mpr hpre⟩

/-- **C8** (counterexample): the serial "A_BC" has length 4 and is not a
substring of the description "AXBC", yet the LIKE-based join marks the pair
as a candidate, because '_' matches any single character in a LIKE pattern. -/
theorem containment_like_wildcard_counterexample :
    (1, 21) ∈ auto02CandidatePairs1 wildcardDB ∧
    ¬ (wildcardFis.serieNorm.data <:+: wildcardCtb.descNorm.data) := by
  exact ⟨by decide, by decide⟩

/-- **C8** (amended): the rule-1 containment join yields the pair (i, j)
exactly when a pending physical row with id i has a normalized serial of
length ≥ 4 that the normalized description of a pending accounting parent row
with id j matches as a SQL LIKE pattern; when the serial contains no LIKE
wildcard ('%' or '_') this is exactly substring containment; and a serial of
length ≤ 3 never yields a candidate. -/
theorem containment_rule_amended (db : DB) (i j : Int) :
    ((i, j) ∈ auto02CandidatePairs1 db ↔
      ∃ f ∈ db.fisico, ∃ t ∈ db.contabil,
        f.id = i ∧ t.id = j ∧
        lockedOn db .FIS f.id = false ∧ lockedOn db .CTB t.id = false ∧
        t.inc.getD 0 = 0 ∧ 4 ≤ f.serieNorm.length ∧
        sqlLike ('%' :: (f.serieNorm.data ++ ['%'])) t.descNorm.data = true) ∧
    (∀ f : FisRec, ∀ t : CtbRec,
      (∀ c ∈ f.serieNorm.data, c ≠ '%' ∧ c ≠ '_') →
        (auto02Rule1Cond f t = true ↔
          4 ≤ f.serieNorm.length ∧ f.serieNorm.data <:+: t.descNorm.data)) ∧
    (∀ f : FisRec, ∀ t : CtbRec, f.serieNorm.length ≤ 3 →
      auto02Rule1Cond f t = false) := by
  refine ⟨?_, ?_, ?_⟩
  · unfold auto02CandidatePairs1
    simp only [List.mem_flatMap, List.mem_map, List.mem_filter, Bool.and_eq_true,
      Bool.not_eq_true', auto02Rule1Cond, decide_eq_true_eq]
    constructor
    · rintro ⟨f, hf, t, ⟨ht, ⟨⟨⟨hcond, hlike⟩, hlf⟩, hlt⟩, hinc⟩, hij⟩
      exact ⟨f, hf, t, ht, congrArg Prod.fst hij, congrArg Prod.snd hij,
        hlf, hlt, hinc, hcond, hlike⟩
    · rintro ⟨f, hf, t, ht, hi, hj, hlf, hlt, hinc, hlen, hlike⟩
      exact ⟨f, hf, t, ⟨ht, ⟨⟨⟨hlen, hlike⟩, hlf⟩, hlt⟩, hinc⟩, by rw [hi, hj]⟩
  · intro f t hs
    unfold auto02Rule1Cond
    rw [Bool.and_eq_true, sqlLike_infix_iff f.serieNorm.data hs t.descNorm.data]
    simp
  · intro f t hlen
    unfold auto02Rule1Cond
    have : ¬ (4 ≤ f.serieNorm.length) := by omega
    simp [this]

/-- Witness for `containment_rule_amended` at the wildcard state: the pair is
a candidate, the general equivalence applies to a wildcard-free serial, and
the short-serial clause fires on a length-3 serial. -/
theorem containment_rule_amended_witness :
    (1, 21) ∈ auto02CandidatePairs1 wildcardDB ∧
    (auto02Rule1Cond ⟨1, none, "", "", "ABCD", "", "", false⟩
        ⟨21, none, some 0, "", "XABCDY", "", "", false⟩ = true ↔
      4 ≤ ("ABCD" : String).length ∧ "ABCD".data <:+: "XABCDY".data) ∧
    auto02Rule1Cond ⟨1, none, "", "", "ABC", "", "", false⟩
        ⟨21, none, some 0, "", "ITEM ABC1234 LOCAL X", "", "", false⟩ = false := by
  refine ⟨?_, ?_, ?_⟩
  · exact ((containment_rule_amended wildcardDB 1 21).1).mpr
      ⟨wildcardFis, by decide, wildcardCtb, by decide, rfl, rfl, rfl, rfl, rfl,
        by decide, by decide⟩
  · exact (containment_rule_amended wildcardDB 1 21).2.1 _ _ (by decide)
  · exact (containment_rule_amended wildcardDB 1 21).2.2 _ _ (by decide)

/-! ## Conflict skipping (C9) -/

/-- A pair whose non-zero side is already locked leaves the `save_pairs` loop
state unchanged: the lock checks fire before anything is accumulated. -/
theorem savePairsStep_skip (db : DB) (st : String) (acc : SaveAcc) (p : Int × Int)
    (hp : (0 < p.1 ∧ lockedOn db .FIS p.1 = true) ∨
      (0 < p.2 ∧ lockedOn db .CTB p.2 = true)) :
    savePairsStep db st acc p = acc := by
  unfold savePairsStep
  rcases hp with ⟨h1, h2⟩ | ⟨h1, h2⟩
  · rw [if_neg (fun h => absurd h.1 (by omega)), if_pos ⟨h1, by simp [h2]⟩]
  · by_cases hz : p.1 ≤ 0 ∧ p.2 ≤ 0
    · rw [if_pos hz]
    · rw [if_neg hz]
      by_cases hf : 0 < p.1 ∧ (lockedOn db .FIS p.1 : Prop)
      · rw [if_pos hf]
      · rw [if_neg hf, if_pos ⟨h1, by simp [h2]⟩]

/-- The same for the first loop of `save_pairs_with_family`: a locked side
also satisfies its pending-or-locked disjunction. -/
theorem saveFamilyStep_skip (db : DB) (st cs : String) (acc : FamAcc) (p : Int × Int)
    (hp : (0 < p.1 ∧ lockedOn db .FIS p.1 = true) ∨
      (0 < p.2 ∧ lockedOn db .CTB p.2 = true)) :
    saveFamilyStep db st cs acc p = acc := by
  unfold saveFamilyStep
  rcases hp with ⟨h1, h2⟩ | ⟨h1, h2⟩
  · rw [if_neg (fun h => absurd h.1 (by omega)), if_pos ⟨h1, by simp [h2]⟩]
  · by_cases hz : p.1 ≤ 0 ∧ p.2 ≤ 0
    · rw [if_pos hz]
    · rw [if_neg hz]
      by_cases hf : 0 < p.1 ∧ (lockedOn db .FIS p.1 : Prop)
      · rw [if_pos hf]
      · rw [if_neg hf, if_pos ⟨h1, Or.inr (by simp [h2])⟩]

/-- Removing a no-op element from the middle of a fold does not change it. -/
theorem foldl_middle_skip {α β : Type} (f : β → α → β) (x : α)
    (hx : ∀ b, f b x = b) (xs ys : List α) (init : β) :
    (xs ++ x :: ys).foldl f init = (xs ++ ys).foldl f init := by
  rw [List.foldl_append, List.foldl_append, List.foldl_cons, hx]

/-- **C9**: a pair whose non-zero side is already present in the lock table is
skipped individually by `save_pairs` and by `save_pairs_with_family`: the call
returns exactly what it returns on the batch without that pair — the other
pairs are still committed and the returned count excludes the skipped pair. -/
theorem conflicting_pair_skipped (db : DB) (st : String) (xs ys : List (Int × Int))
    (p : Int × Int)
    (hp : (0 < p.1 ∧ lockedOn db .FIS p.1 = true) ∨
      (0 < p.2 ∧ lockedOn db .CTB p.2 = true)) :
    save_pairs db (xs ++ p :: ys) st = save_pairs db (xs ++ ys) st ∧
    save_pairs_with_family db (xs ++ p :: ys) st =
      save_pairs_with_family db (xs ++ ys) st := by
  constructor
  · unfold save_pairs
    rw [if_neg (by simp), foldl_middle_skip _ p (fun b => savePairsStep_skip db st b p hp)]
    by_cases h0 : xs ++ ys = []
    · rw [if_pos h0, h0]
      cases db
      simp
    · rw [if_neg h0]
  · simp only [save_pairs_with_family]
    rw [if_neg (List.append_ne_nil_of_right_ne_nil xs (List.cons_ne_nil p ys)),
      foldl_middle_skip _ p
        (fun b => saveFamilyStep_skip db st (child_status_for_origin st) b p hp)]
    by_cases h0 : xs ++ ys = []
    · rw [if_pos h0, h0]
      cases db
      simp [famPropagate]
    · rw [if_neg h0]

/-- Witness for `conflicting_pair_skipped`: with record 10 already locked on
the accounting side, the batch [(2, 10), (3, 11)] commits only (3, 11), the
same as the batch [(3, 11)] alone. -/
theorem conflicting_pair_skipped_witness :
    save_pairs ⟨[mkFis 2 0, mkFis 3 0], [mkCtb 10 0 0, mkCtb 11 0 0], [],
        [⟨Base.CTB, 10, 1⟩]⟩ [(2, 10), (3, 11)] "MANUAL" =
      save_pairs ⟨[mkFis 2 0, mkFis 3 0], [mkCtb 10 0 0, mkCtb 11 0 0], [],
        [⟨Base.CTB, 10, 1⟩]⟩ [(3, 11)] "MANUAL" ∧
    (save_pairs ⟨[mkFis 2 0, mkFis 3 0], [mkCtb 10 0 0, mkCtb 11 0 0], [],
        [⟨Base.CTB, 10, 1⟩]⟩ [(2, 10), (3, 11)] "MANUAL").1 = 1 := by
  refine ⟨?_, by decide⟩
  exact (conflicting_pair_skipped _ "MANUAL" [] [(3, 11)] (2, 10)
    (Or.inr ⟨by decide, by decide⟩)).1

/-! ## Undo of a committed family (C3) -/

theorem lockedOn_of_conc_nil {db : DB} (h : db.conciliados = []) (b : Base) (i : Int) :
    lockedOn db b i = false := by
  unfold lockedOn; rw [h]; rfl

theorem get_counts_no_locks (db : DB) (h : db.conciliados = []) :
    get_counts db = ⟨db.fisico.length, db.contabil.length⟩ := by
  unfold get_counts
  simp [lockedOn_of_conc_nil h]

theorem maxParId_of_dep_nil {db : DB} (h : db.depara = []) : maxParId db = 0 := by
  unfold maxParId; rw [h]; rfl

theorem mem_insertSet_self (s : List Int) (x : Int) : x ∈ insertSet s x := by
  unfold insertSet; split <;> simp_all

theorem mem_insertSet_of_mem (s : List Int) (x a : Int) (h : a ∈ s) :
    a ∈ insertSet s x := by
  unfold insertSet; split <;> simp [h]

theorem mem_foldl_insertSet (l init : List Int) (a : Int) (h : a ∈ l ∨ a ∈ init) :
    a ∈ l.foldl insertSet init := by
  induction l generalizing init with
  | nil => simpa using h.resolve_left (by simp)
  | cons x xs ih =>
    rcases h with h | h
    · rcases List.mem_cons.mp h with rfl | h
      · exact ih (insertSet init a) (Or.inr (mem_insertSet_self init a))
      · exact ih (insertSet init x) (Or.inl h)
    · exact ih (insertSet init x) (Or.inr (mem_insertSet_of_mem init x a h))

/-- The propagation step keeps every accumulated ledger row on the family's
group key and anchor, and keeps every accumulated lock row tied to an
accumulated ledger row by PAR_ID. -/
theorem famPropStep_inv (db : DB) (st cs : String) (N p : Int) (m : Int × Int)
    (acc : FamAcc)
    (h1 : ∀ r ∈ acc.deparaRows, r.nrbrm = N ∧ r.idFisico = p)
    (h2 : ∀ c ∈ acc.concRows, ∃ r ∈ acc.deparaRows, r.parId = c.parId) :
    (∀ r ∈ (famPropStep db st cs N p acc m).deparaRows, r.nrbrm = N ∧ r.idFisico = p) ∧
    (∀ c ∈ (famPropStep db st cs N p acc m).concRows,
      ∃ r ∈ (famPropStep db st cs N p acc m).deparaRows, r.parId = c.parId) := by
  unfold famPropStep
  by_cases hskip : m.1 ∈ acc.pendingCtb ∨ (lockedOn db .CTB m.1 : Prop)
  · rw [if_pos hskip]; exact ⟨h1, h2⟩
  · rw [if_neg hskip]
    refine ⟨?_, ?_⟩
    · intro r hr
      rcases List.mem_append.mp hr with hr | hr
      · exact h1 r hr
      · rcases List.mem_singleton.mp hr with rfl
        exact ⟨rfl, rfl⟩
    · intro c hc
      rcases List.mem_append.mp hc with hc | hc
      · rcases List.mem_append.mp hc with hc | hc
        · obtain ⟨r, hr, hpr⟩ := h2 c hc
          exact ⟨r, List.mem_append_left _ hr, hpr⟩
        · refine ⟨⟨acc.nextParId, (if m.2 ≠ 0 then cs else st), p, m.1, N, some m.2⟩,
            List.mem_append_right _ (List.mem_singleton.mpr rfl), ?_⟩
          by_cases hp0 : p > 0
          · rw [if_pos hp0] at hc
            rcases List.mem_singleton.mp hc with rfl
            rfl
          · rw [if_neg hp0] at hc
            exact absurd hc (List.not_mem_nil _)
      · rcases List.mem_singleton.mp hc with rfl
        exact ⟨⟨acc.nextParId, (if m.2 ≠ 0 then cs else st), p, m.1, N, some m.2⟩,
          List.mem_append_right _ (List.mem_singleton.mpr rfl), rfl⟩

/-- The invariants of `famPropStep_inv` are preserved by the whole
propagation fold. -/
theorem famProp_fold_inv (db : DB) (st cs : String) (N p : Int)
    (rows : List (Int × Int)) (acc : FamAcc)
    (h1 : ∀ r ∈ acc.deparaRows, r.nrbrm = N ∧ r.idFisico = p)
    (h2 : ∀ c ∈ acc.concRows, ∃ r ∈ acc.deparaRows, r.parId = c.parId) :
    (∀ r ∈ (rows.foldl (famPropStep db st cs N p) acc).deparaRows,
      r.nrbrm = N ∧ r.idFisico = p) ∧
    (∀ c ∈ (rows.foldl (famPropStep db st cs N p) acc).concRows,
      ∃ r ∈ (rows.foldl (famPropStep db st cs N p) acc).deparaRows,
        r.parId = c.parId) := by
  induction rows generalizing acc with
  | nil => exact ⟨h1, h2⟩
  | cons m ms ih =>
    have := famPropStep_inv db st cs N p m acc h1 h2
    exact ih (famPropStep db st cs N p acc m) this.1 this.2

/-- A single admissible pair on an accounting parent commits, from an empty
ledger, only rows carrying the parent's group key and the pair's anchor, with
every lock row tied to a ledger row by PAR_ID. -/
theorem save_family_single_inv (db : DB) (p : Int) (parent : CtbRec) (st : String)
    (hdep : db.depara = []) (hconc : db.conciliados = [])
    (hp : 0 < p) (hpid : 0 < parent.id)
    (hfind : lookupCtb db parent.id = some parent)
    (hinc : parent.inc.getD 0 = 0)
    (hnr : 0 < parent.nrbrm.getD 0) :
    (save_pairs_with_family db [(p, parent.id)] st).2.fisico = db.fisico ∧
    (save_pairs_with_family db [(p, parent.id)] st).2.contabil = db.contabil ∧
    (∀ r ∈ (save_pairs_with_family db [(p, parent.id)] st).2.depara,
      r.nrbrm = parent.nrbrm.getD 0 ∧ r.idFisico = p) ∧
    (∀ c ∈ (save_pairs_with_family db [(p, parent.id)] st).2.conciliados,
      ∃ r ∈ (save_pairs_with_family db [(p, parent.id)] st).2.depara,
        r.parId = c.parId) := by
  have hlockF := lockedOn_of_conc_nil hconc Base.FIS
  have hlockC := lockedOn_of_conc_nil hconc Base.CTB
  simp only [save_pairs_with_family]
  rw [if_neg (List.cons_ne_nil _ _)]
  simp only [List.foldl_cons, List.foldl_nil]
  rw [show saveFamilyStep db st (child_status_for_origin st)
        ⟨[], [], [], [], [], 0, maxParId db + 1⟩ (p, parent.id) =
      ⟨[⟨maxParId db + 1, st, p, parent.id, parent.nrbrm.getD 0, some 0⟩],
        [⟨Base.FIS, p, maxParId db + 1⟩, ⟨Base.CTB, parent.id, maxParId db + 1⟩],
        [p], [parent.id], [(parent.nrbrm.getD 0, p)], 1, maxParId db + 1 + 1⟩ from ?_]
  · rw [List.foldl_cons, List.foldl_nil]
    simp only [famPropagate]
    rw [if_neg (by omega)]
    have hbase := famProp_fold_inv db st (child_status_for_origin st)
      (parent.nrbrm.getD 0) p (familyRows db (parent.nrbrm.getD 0))
      ⟨[⟨maxParId db + 1, st, p, parent.id, parent.nrbrm.getD 0, some 0⟩],
        [⟨Base.FIS, p, maxParId db + 1⟩, ⟨Base.CTB, parent.id, maxParId db + 1⟩],
        [p], [parent.id], [(parent.nrbrm.getD 0, p)], 1, maxParId db + 1 + 1⟩
      (by
        intro r hr
        rcases List.mem_singleton.mp hr with rfl
        exact ⟨rfl, rfl⟩)
      (by
        intro c hc
        refine ⟨⟨maxParId db + 1, st, p, parent.id, parent.nrbrm.getD 0, some 0⟩,
          List.mem_singleton.mpr rfl, ?_⟩
        rcases List.mem_cons.mp hc with rfl | hc
        · rfl
        · rcases List.mem_singleton.mp hc with rfl
          rfl)
    refine ⟨trivial, trivial, ?_, ?_⟩
    · intro r hr
      rw [hdep] at hr
      exact hbase.1 r (by simpa using hr)
    · intro c hc
      rw [hconc] at hc
      obtain ⟨r, hr, hpr⟩ := hbase.2 c (by simpa using hc)
      rw [hdep]
      exact ⟨r, by simpa using hr, hpr⟩
  · unfold saveFamilyStep
    rw [if_neg (fun h => absurd h.1 (by omega)),
      if_neg (fun h => by simp [hlockF] at h),
      if_neg (fun h => by
        rcases h.2 with h2 | h2
        · exact absurd h2 (List.not_mem_nil _)
        · simp [hlockC] at h2)]
    simp only [hfind, Option.map_some']
    simp [hp, hpid, hinc]

/-- With an exact (physical, accounting-parent) key, the PAR_ID discovery of
`undo_pairs` reaches every ledger row carrying the parent's group key and the
pair's anchor. -/
theorem undoCollect_parIds_complete (db1 : DB) (p : Int) (parent : CtbRec)
    (hp : 0 < p) (hpid : 0 < parent.id)
    (hfind : lookupCtb db1 parent.id = some parent)
    (hinc : parent.inc.getD 0 = 0) (hnr : 0 < parent.nrbrm.getD 0)
    (h1 : ∀ r ∈ db1.depara, r.nrbrm = parent.nrbrm.getD 0 ∧ r.idFisico = p) :
    ∀ r ∈ db1.depara,
      r.parId ∈ (undoCollect db1 ⟨[], [], []⟩ (p, parent.id)).parIds := by
  intro r hr
  unfold undoCollect
  simp only [hfind]
  rw [if_pos ⟨hp, hpid⟩, if_pos ⟨hnr, hinc⟩]
  apply mem_foldl_insertSet
  refine Or.inl (List.mem_append_right _ ?_)
  exact List.mem_map.mpr ⟨r, List.mem_filter.mpr ⟨hr, by simpa using h1 r hr⟩, rfl⟩

/-- Undoing the exact (anchor, parent) key on a ledger that holds only that
family's rows removes every ledger row and every lock row, leaving the two
base tables at their previous sizes. -/
theorem undo_pairs_family_clears (db1 : DB) (p : Int) (parent : CtbRec)
    (hp : 0 < p) (hpid : 0 < parent.id)
    (hfind : lookupCtb db1 parent.id = some parent)
    (hinc : parent.inc.getD 0 = 0) (hnr : 0 < parent.nrbrm.getD 0)
    (h1 : ∀ r ∈ db1.depara, r.nrbrm = parent.nrbrm.getD 0 ∧ r.idFisico = p)
    (h2 : ∀ c ∈ db1.conciliados, ∃ r ∈ db1.depara, r.parId = c.parId) :
    (undo_pairs db1 [(p, parent.id)]).2.depara = [] ∧
    (undo_pairs db1 [(p, parent.id)]).2.conciliados = [] ∧
    (undo_pairs db1 [(p, parent.id)]).2.fisico.length = db1.fisico.length ∧
    (undo_pairs db1 [(p, parent.id)]).2.contabil.length = db1.contabil.length := by
  have hnorm : normUndoPairs [(p, parent.id)] = [(p, parent.id)] := by
    unfold normUndoPairs
    simp only [List.foldl_cons, List.foldl_nil]
    rw [if_neg (List.not_mem_nil _), if_neg (fun h => absurd h.1 (by omega))]
    rfl
  have hcover := undoCollect_parIds_complete db1 p parent hp hpid hfind hinc hnr h1
  simp only [undo_pairs]
  rw [if_neg (List.cons_ne_nil _ _), hnorm, if_neg (List.cons_ne_nil _ _)]
  simp only [List.foldl_cons, List.foldl_nil]
  have hdep2 : db1.depara.filter
      (fun r => !(r.parId ∈ (undoCollect db1 ⟨[], [], []⟩ (p, parent.id)).parIds)) = [] := by
    rw [List.filter_eq_nil_iff]
    intro r hr
    simp [hcover r hr]
  have hconc1 : db1.conciliados.filter
      (fun c => !(c.parId ∈ (undoCollect db1 ⟨[], [], []⟩ (p, parent.id)).parIds)) = [] := by
    rw [List.filter_eq_nil_iff]
    intro c hc
    obtain ⟨r, hr, hpr⟩ := h2 c hc
    simp [← hpr, hcover r hr]
  simp [hdep2, hconc1]

/-- **C3**: committing one pair on an accounting parent (INC = 0, group key
> 0) from a state with an empty ledger and lock table propagates the family in
one transaction, and a subsequent `undo_pairs` with that (physicalId,
accountingId) key removes the parent ledger row and every propagated row
sharing its group key, emptying the ledger and lock table; the pending counts
afterwards equal the counts before the commit. -/
theorem undo_parent_family_roundtrip (db : DB) (p : Int) (parent : CtbRec)
    (hdep : db.depara = []) (hconc : db.conciliados = [])
    (hp : 0 < p) (hpid : 0 < parent.id)
    (hfind : lookupCtb db parent.id = some parent)
    (hinc : parent.inc.getD 0 = 0) (hnr : 0 < parent.nrbrm.getD 0) :
    (undo_pairs (save_pairs_with_family db [(p, parent.id)] "MANUAL").2
      [(p, parent.id)]).2.depara = [] ∧
    (undo_pairs (save_pairs_with_family db [(p, parent.id)] "MANUAL").2
      [(p, parent.id)]).2.conciliados = [] ∧
    get_counts (undo_pairs (save_pairs_with_family db [(p, parent.id)] "MANUAL").2
      [(p, parent.id)]).2 = get_counts db := by
  obtain ⟨hfis1, hctb1, h1, h2⟩ :=
    save_family_single_inv db p parent "MANUAL" hdep hconc hp hpid hfind hinc hnr
  have hfind1 : lookupCtb (save_pairs_with_family db [(p, parent.id)] "MANUAL").2
      parent.id = some parent := by
    unfold lookupCtb at hfind ⊢
    rw [hctb1, hfind]
  obtain ⟨hu1, hu2, hu3, hu4⟩ := undo_pairs_family_clears
    (save_pairs_with_family db [(p, parent.id)] "MANUAL").2 p parent
    hp hpid hfind1 hinc hnr h1 h2
  refine ⟨hu1, hu2, ?_⟩
  rw [get_counts_no_locks _ hu2, get_counts_no_locks db hconc, hu3, hu4, hfis1, hctb1]

/-- Witness for `undo_parent_family_roundtrip` on the one-parent-one-child
family state. -/
theorem undo_parent_family_roundtrip_witness :
    (undo_pairs (save_pairs_with_family famAnchorDB [(1, 10)] "MANUAL").2
      [(1, 10)]).2.depara = [] ∧
    (undo_pairs (save_pairs_with_family famAnchorDB [(1, 10)] "MANUAL").2
      [(1, 10)]).2.conciliados = [] ∧
    get_counts (undo_pairs (save_pairs_with_family famAnchorDB [(1, 10)] "MANUAL").2
      [(1, 10)]).2 = get_counts famAnchorDB :=
  undo_parent_family_roundtrip famAnchorDB 1 (mkCtb 10 100 0) rfl rfl
    (by decide) (by decide) (by decide) (by decide) (by decide)

/-! ## Lock-table uniqueness (C1) -/

theorem concSideIds_append (l1 l2 : List ConcRow) (b : Base) :
    concSideIds (l1 ++ l2) b = concSideIds l1 b ++ concSideIds l2 b := by
  simp [concSideIds, List.filter_append]

theorem mem_concSideIds (rows : List ConcRow) (b : Base) (i : Int) :
    i ∈ concSideIds rows b ↔ ∃ c ∈ rows, c.base = b ∧ c.recId = i := by
  simp only [concSideIds, List.mem_map, List.mem_filter, decide_eq_true_eq]
  constructor
  · rintro ⟨c, ⟨hc, hb⟩, rfl⟩; exact ⟨c, hc, hb, rfl⟩
  · rintro ⟨c, hc, hb, rfl⟩; exact ⟨c, ⟨hc, hb⟩, rfl⟩

theorem unlocked_iff (db : DB) (b : Base) (i : Int) :
    lockedOn db b i = false ↔ i ∉ concSideIds db.conciliados b := by
  unfold lockedOn
  rw [List.any_eq_false, mem_concSideIds]
  constructor
  · rintro h ⟨c, hc, hb, hr⟩
    have := h c hc
    simp [hb, hr] at this
  · intro h c hc
    by_cases hb : c.base = b
    · by_cases hr : c.recId = i
      · exact absurd ⟨c, hc, hb, hr⟩ h
      · simp [hr]
    · simp [hb]

/-- Per-side uniqueness of the record ids implies global uniqueness of the
(side, recordId) pairs of a lock-row list. -/
theorem nodup_pairs_of_sides (rows : List ConcRow)
    (hf : (concSideIds rows .FIS).Nodup) (hc : (concSideIds rows .CTB).Nodup) :
    (rows.map (fun c => (c.base, c.recId))).Nodup := by
  induction rows with
  | nil => exact List.nodup_nil
  | cons c l ih =>
    have hsplit : ∀ b : Base, concSideIds (c :: l) b =
        (if c.base = b then [c.recId] else []) ++ concSideIds l b := by
      intro b
      by_cases hb : c.base = b <;> simp [concSideIds, List.filter_cons, hb]
    rw [hsplit Base.FIS] at hf
    rw [hsplit Base.CTB] at hc
    rw [List.map_cons, List.nodup_cons]
    constructor
    · intro hmem
      rcases List.mem_map.mp hmem with ⟨d, hd, hpair⟩
      have hb : d.base = c.base := congrArg Prod.fst hpair
      have hr : d.recId = c.recId := congrArg Prod.snd hpair
      have hmem2 : c.recId ∈ concSideIds l c.base :=
        (mem_concSideIds l c.base c.recId).mpr ⟨d, hd, hb, hr⟩
      cases hcb : c.base with
      | FIS =>
        rw [hcb] at hf hmem2
        simp at hf
        exact hf.1 hmem2
      | CTB =>
        rw [hcb] at hc hmem2
        simp at hc
        exact hc.1 hmem2
    · apply ih
      · cases hcb : c.base with
        | FIS => rw [hcb] at hf; simp at hf; exact hf.2
        | CTB => rw [hcb] at hf; simpa using hf
      · cases hcb : c.base with
        | FIS => rw [hcb] at hc; simpa using hc
        | CTB => rw [hcb] at hc; simp at hc; exact hc.2

/-- The loop invariant of `save_pairs` for a per-side-distinct batch: the
accumulated lock rows reference, once each, only positive unlocked ids coming
from the already-processed prefix. -/
theorem savePairs_fold_inv (db : DB) (st : String) (batch : List (Int × Int))
    (hdf : (posFst batch).Nodup) (hdc : (posSnd batch).Nodup) :
    ∀ (rest pre : List (Int × Int)) (acc : SaveAcc), batch = pre ++ rest →
    ((∀ i ∈ concSideIds acc.concRows .FIS,
        i ∈ posFst pre ∧ lockedOn db .FIS i = false) ∧
      (concSideIds acc.concRows .FIS).Nodup ∧
      (∀ i ∈ concSideIds acc.concRows .CTB,
        i ∈ posSnd pre ∧ lockedOn db .CTB i = false) ∧
      (concSideIds acc.concRows .CTB).Nodup) →
    ((∀ i ∈ concSideIds (rest.foldl (savePairsStep db st) acc).concRows .FIS,
        i ∈ posFst batch ∧ lockedOn db .FIS i = false) ∧
      (concSideIds (rest.foldl (savePairsStep db st) acc).concRows .FIS).Nodup ∧
      (∀ i ∈ concSideIds (rest.foldl (savePairsStep db st) acc).concRows .CTB,
        i ∈ posSnd batch ∧ lockedOn db .CTB i = false) ∧
      (concSideIds (rest.foldl (savePairsStep db st) acc).concRows .CTB).Nodup) := by
  intro rest
  induction rest with
  | nil =>
    intro pre acc hb hP
    rw [List.append_nil] at hb
    subst hb
    simpa using hP
  | cons x rest ih =>
    intro pre acc hb hP
    rw [List.foldl_cons]
    refine ih (pre ++ [x]) (savePairsStep db st acc x) (by simp [hb]) ?_
    have hmonoF : ∀ i, i ∈ posFst pre → i ∈ posFst (pre ++ [x]) := by
      intro i hi; simp only [posFst, List.map_append, List.filter_append] at *
      exact List.mem_append_left _ hi
    have hmonoC : ∀ i, i ∈ posSnd pre → i ∈ posSnd (pre ++ [x]) := by
      intro i hi; simp only [posSnd, List.map_append, List.filter_append] at *
      exact List.mem_append_left _ hi
    obtain ⟨hPf, hPfn, hPc, hPcn⟩ := hP
    have hkeep : ((∀ i ∈ concSideIds acc.concRows .FIS,
        i ∈ posFst (pre ++ [x]) ∧ lockedOn db .FIS i = false) ∧
        (concSideIds acc.concRows .FIS).Nodup ∧
        (∀ i ∈ concSideIds acc.concRows .CTB,
          i ∈ posSnd (pre ++ [x]) ∧ lockedOn db .CTB i = false) ∧
        (concSideIds acc.concRows .CTB).Nodup) :=
      ⟨fun i hi => ⟨hmonoF i (hPf i hi).1, (hPf i hi).2⟩, hPfn,
        fun i hi => ⟨hmonoC i (hPc i hi).1, (hPc i hi).2⟩, hPcn⟩
    unfold savePairsStep
    by_cases h0 : x.1 ≤ 0 ∧ x.2 ≤ 0
    · rw [if_pos h0]; exact hkeep
    · rw [if_neg h0]
      by_cases hLF : 0 < x.1 ∧ (lockedOn db .FIS x.1 : Prop)
      · rw [if_pos hLF]; exact hkeep
      · rw [if_neg hLF]
        by_cases hLC : 0 < x.2 ∧ (lockedOn db .CTB x.2 : Prop)
        · rw [if_pos hLC]; exact hkeep
        · rw [if_neg hLC]
          cases hinfo : (if x.2 > 0 then
              (lookupCtb db x.2).map (fun c => (c.nrbrm.getD 0, some (c.inc.getD 0)))
            else (lookupFis db x.1).map (fun f => (f.nrbrm.getD 0, none))) with
          | none => exact hkeep
          | some nri =>
            obtain ⟨nr, inc⟩ := nri
            rw [show (match (some (nr, inc) : Option (Int × Option Int)) with
                | none => acc
                | some (nrbrm, incCtb) =>
                  if x.1 > 0 ∧ (lockedOn db .FIS x.1 : Prop) then acc
                  else if x.2 > 0 ∧ (lockedOn db .CTB x.2 : Prop) then acc
                  else
                    { deparaRows := acc.deparaRows ++
                        [⟨acc.nextParId, st, x.1, x.2, nrbrm, incCtb⟩]
                      concRows := acc.concRows ++
                        (if x.1 > 0 then [⟨Base.FIS, x.1, acc.nextParId⟩] else []) ++
                        (if x.2 > 0 then [⟨Base.CTB, x.2, acc.nextParId⟩] else [])
                      pendingFis := if x.1 > 0 then acc.pendingFis ++ [x.1]
                        else acc.pendingFis
                      pendingCtb := if x.2 > 0 then acc.pendingCtb ++ [x.2]
                        else acc.pendingCtb
                      saved := acc.saved + 1
                      nextParId := acc.nextParId + 1 }) =
              (if x.1 > 0 ∧ (lockedOn db .FIS x.1 : Prop) then acc
               else if x.2 > 0 ∧ (lockedOn db .CTB x.2 : Prop) then acc
               else
                 { deparaRows := acc.deparaRows ++
                     [⟨acc.nextParId, st, x.1, x.2, nr, inc⟩]
                   concRows := acc.concRows ++
                     (if x.1 > 0 then [⟨Base.FIS, x.1, acc.nextParId⟩] else []) ++
                     (if x.2 > 0 then [⟨Base.CTB, x.2, acc.nextParId⟩] else [])
                   pendingFis := if x.1 > 0 then acc.pendingFis ++ [x.1]
                     else acc.pendingFis
                   pendingCtb := if x.2 > 0 then acc.pendingCtb ++ [x.2]
                     else acc.pendingCtb
                   saved := acc.saved + 1
                   nextParId := acc.nextParId + 1 }) from rfl,
              if_neg hLF, if_neg hLC]
            have hF1 : lockedOn db .FIS x.1 = false ∨ ¬ 0 < x.1 := by
              by_cases h : 0 < x.1
              · cases hh : lockedOn db .FIS x.1 with
                | false => exact Or.inl rfl
                | true => exact absurd ⟨h, hh⟩ hLF
              · exact Or.inr h
            have hC1 : lockedOn db .CTB x.2 = false ∨ ¬ 0 < x.2 := by
              by_cases h : 0 < x.2
              · cases hh : lockedOn db .CTB x.2 with
                | false => exact Or.inl rfl
                | true => exact absurd ⟨h, hh⟩ hLC
              · exact Or.inr h
            -- the new lock rows of this pair
            have e1 : concSideIds
                (if x.1 > 0 then [(⟨Base.FIS, x.1, acc.nextParId⟩ : ConcRow)] else [])
                .FIS = if 0 < x.1 then [x.1] else [] := by
              by_cases h1 : 0 < x.1 <;> simp [concSideIds, h1]
            have e2 : concSideIds
                (if x.2 > 0 then [(⟨Base.CTB, x.2, acc.nextParId⟩ : ConcRow)] else [])
                .FIS = [] := by
              by_cases h2 : 0 < x.2 <;> simp [concSideIds, h2]
            have e3 : concSideIds
                (if x.1 > 0 then [(⟨Base.FIS, x.1, acc.nextParId⟩ : ConcRow)] else [])
                .CTB = [] := by
              by_cases h1 : 0 < x.1 <;> simp [concSideIds, h1]
            have e4 : concSideIds
                (if x.2 > 0 then [(⟨Base.CTB, x.2, acc.nextParId⟩ : ConcRow)] else [])
                .CTB = if 0 < x.2 then [x.2] else [] := by
              by_cases h2 : 0 < x.2 <;> simp [concSideIds, h2]
            dsimp only
            rw [concSideIds_append, concSideIds_append, concSideIds_append,
              concSideIds_append, e1, e2, e3, e4]
            simp only [List.append_nil]
            have hxposF : 0 < x.1 → x.1 ∈ posFst (pre ++ [x]) := by
              intro h1
              simp [posFst, List.filter_append, h1]
            have hxposC : 0 < x.2 → x.2 ∈ posSnd (pre ++ [x]) := by
              intro h2
              simp [posSnd, List.filter_append, h2]
            have hnotinF : 0 < x.1 → x.1 ∉ concSideIds acc.concRows .FIS := by
              intro h1 hmem
              have hx1pre : x.1 ∈ posFst pre := (hPf x.1 hmem).1
              have : ¬ (posFst batch).Nodup := by
                rw [hb]
                intro hnd
                have : posFst (pre ++ x :: rest) =
                    posFst pre ++ posFst (x :: rest) := by
                  simp [posFst, List.filter_append]
                rw [this] at hnd
                have hx1r : x.1 ∈ posFst (x :: rest) := by
                  simp [posFst, List.filter_cons, h1]
                exact (List.disjoint_of_nodup_append hnd) hx1pre hx1r
              exact this hdf
            have hnotinC : 0 < x.2 → x.2 ∉ concSideIds acc.concRows .CTB := by
              intro h2 hmem
              have hx2pre : x.2 ∈ posSnd pre := (hPc x.2 hmem).1
              have : ¬ (posSnd batch).Nodup := by
                rw [hb]
                intro hnd
                have : posSnd (pre ++ x :: rest) =
                    posSnd pre ++ posSnd (x :: rest) := by
                  simp [posSnd, List.filter_append]
                rw [this] at hnd
                have hx2r : x.2 ∈ posSnd (x :: rest) := by
                  simp [posSnd, List.filter_cons, h2]
                exact (List.disjoint_of_nodup_append hnd) hx2pre hx2r
              exact this hdc
            refine ⟨?_, ?_, ?_, ?_⟩
            · intro i hi
              rcases List.mem_append.mp hi with hi | hi
              · exact ⟨hmonoF i (hPf i hi).1, (hPf i hi).2⟩
              · by_cases h1 : 0 < x.1
                · rw [if_pos h1] at hi
                  rcases List.mem_singleton.mp hi with rfl
                  exact ⟨hxposF h1, hF1.resolve_right (fun h => h h1)⟩
                · rw [if_neg h1] at hi
                  exact absurd hi (List.not_mem_nil _)
            · rw [List.nodup_append]
              refine ⟨hPfn, ?_, ?_⟩
              · by_cases h1 : 0 < x.1 <;> simp [h1]
              · intro i hi hi2
                by_cases h1 : 0 < x.1
                · rw [if_pos h1] at hi2
                  rcases List.mem_singleton.mp hi2 with rfl
                  exact hnotinF h1 hi
                · rw [if_neg h1] at hi2
                  exact absurd hi2 (List.not_mem_nil _)
            · intro i hi
              rcases List.mem_append.mp hi with hi | hi
              · exact ⟨hmonoC i (hPc i hi).1, (hPc i hi).2⟩
              · by_cases h2 : 0 < x.2
                · rw [if_pos h2] at hi
                  rcases List.mem_singleton.mp hi with rfl
                  exact ⟨hxposC h2, hC1.resolve_right (fun h => h h2)⟩
                · rw [if_neg h2] at hi
                  exact absurd hi (List.not_mem_nil _)
            · rw [List.nodup_append]
              refine ⟨hPcn, ?_, ?_⟩
              · by_cases h2 : 0 < x.2 <;> simp [h2]
              · intro i hi hi2
                by_cases h2 : 0 < x.2
                · rw [if_pos h2] at hi2
                  rcases List.mem_singleton.mp hi2 with rfl
                  exact hnotinC h2 hi
                · rw [if_neg h2] at hi2
                  exact absurd hi2 (List.not_mem_nil _)

/-- `save_pairs` preserves the lock-table uniqueness invariant for a batch
with pairwise-distinct positive ids on each side. -/
theorem save_pairs_lock_nodup (db : DB) (pairs : List (Int × Int)) (st : String)
    (hinv : locksNodup db) (hdf : (posFst pairs).Nodup) (hdc : (posSnd pairs).Nodup) :
    locksNodup (save_pairs db pairs st).2 := by
  unfold save_pairs
  by_cases h0 : pairs = []
  · rw [if_pos h0]; exact hinv
  · rw [if_neg h0]
    obtain ⟨hPf, hPfn, hPc, hPcn⟩ := savePairs_fold_inv db st pairs hdf hdc pairs []
      ⟨[], [], [], [], 0, maxParId db + 1⟩ rfl (by simp [concSideIds])
    unfold locksNodup
    dsimp only
    rw [List.map_append, List.nodup_append]
    refine ⟨hinv, nodup_pairs_of_sides _ hPfn hPcn, ?_⟩
    intro a ha hnew
    rcases List.mem_map.mp hnew with ⟨c, hc, rfl⟩
    rcases List.mem_map.mp ha with ⟨d, hd, hpair⟩
    have hb : d.base = c.base := congrArg Prod.fst hpair
    have hr : d.recId = c.recId := congrArg Prod.snd hpair
    have hlockmem : c.recId ∈ concSideIds db.conciliados c.base :=
      (mem_concSideIds _ _ _).mpr ⟨d, hd, hb, hr⟩
    cases hcb : c.base with
    | FIS =>
      have hmem : c.recId ∈ concSideIds
          (pairs.foldl (savePairsStep db st)
            ⟨[], [], [], [], 0, maxParId db + 1⟩).concRows .FIS :=
        (mem_concSideIds _ _ _).mpr ⟨c, hc, hcb, rfl⟩
      have := (unlocked_iff db .FIS c.recId).mp (hPf _ hmem).2
      rw [hcb] at hlockmem
      exact this hlockmem
    | CTB =>
      have hmem : c.recId ∈ concSideIds
          (pairs.foldl (savePairsStep db st)
            ⟨[], [], [], [], 0, maxParId db + 1⟩).concRows .CTB :=
        (mem_concSideIds _ _ _).mpr ⟨c, hc, hcb, rfl⟩
      have := (unlocked_iff db .CTB c.recId).mp (hPc _ hmem).2
      rw [hcb] at hlockmem
      exact this hlockmem

/-- The first loop of `save_pairs_with_family` keeps the accounting-side lock
rows unique, inside the pending set, and unlocked. -/
theorem saveFamilyStep_ctb_inv (db : DB) (st cs : String) (acc : FamAcc)
    (x : Int × Int)
    (hn : (concSideIds acc.concRows .CTB).Nodup)
    (hm : ∀ i ∈ concSideIds acc.concRows .CTB,
      i ∈ acc.pendingCtb ∧ lockedOn db .CTB i = false) :
    (concSideIds (saveFamilyStep db st cs acc x).concRows .CTB).Nodup ∧
    (∀ i ∈ concSideIds (saveFamilyStep db st cs acc x).concRows .CTB,
      i ∈ (saveFamilyStep db st cs acc x).pendingCtb ∧
        lockedOn db .CTB i = false) := by
  unfold saveFamilyStep
  by_cases h0 : x.1 ≤ 0 ∧ x.2 ≤ 0
  · rw [if_pos h0]; exact ⟨hn, hm⟩
  · rw [if_neg h0]
    by_cases hLF : 0 < x.1 ∧ (lockedOn db .FIS x.1 : Prop)
    · rw [if_pos hLF]; exact ⟨hn, hm⟩
    · rw [if_neg hLF]
      by_cases hLC : 0 < x.2 ∧ (x.2 ∈ acc.pendingCtb ∨ (lockedOn db .CTB x.2 : Prop))
      · rw [if_pos hLC]; exact ⟨hn, hm⟩
      · rw [if_neg hLC]
        cases hinfo : (if x.2 > 0 then
            (lookupCtb db x.2).map (fun c =>
              (c.nrbrm.getD 0, some (c.inc.getD 0),
                acc.involved ++ [(c.nrbrm.getD 0, x.1)]))
          else (lookupFis db x.1).map
            (fun f => (f.nrbrm.getD 0, none, acc.involved))) with
        | none => exact ⟨hn, hm⟩
        | some nri =>
          obtain ⟨nr, inc, inv2⟩ := nri
          dsimp only
          have e2 : concSideIds
              (if x.2 > 0 then [(⟨Base.CTB, x.2, acc.nextParId⟩ : ConcRow)] else [])
              .CTB = if 0 < x.2 then [x.2] else [] := by
            by_cases h2 : 0 < x.2 <;> simp [concSideIds, h2]
          have e1 : concSideIds
              (if x.1 > 0 then [(⟨Base.FIS, x.1, acc.nextParId⟩ : ConcRow)] else [])
              .CTB = [] := by
            by_cases h1 : 0 < x.1 <;> simp [concSideIds, h1]
          rw [concSideIds_append, concSideIds_append, e1, e2]
          simp only [List.append_nil]
          by_cases h2 : 0 < x.2
          · have hfree : x.2 ∉ acc.pendingCtb ∧ lockedOn db .CTB x.2 = false := by
              constructor
              · intro hmem; exact hLC ⟨h2, Or.inl hmem⟩
              · cases hh : lockedOn db .CTB x.2 with
                | false => rfl
                | true => exact absurd ⟨h2, Or.inr hh⟩ hLC
            rw [if_pos h2]
            constructor
            · rw [List.nodup_append]
              refine ⟨hn, by simp, ?_⟩
              intro i hi hi2
              rcases List.mem_singleton.mp hi2 with rfl
              exact hfree.1 (hm _ hi).1
            · intro i hi
              rcases List.mem_append.mp hi with hi | hi
              · exact ⟨by
                  rw [if_pos h2]
                  exact List.mem_append_left _ (hm i hi).1, (hm i hi).2⟩
              · rcases List.mem_singleton.mp hi with rfl
                exact ⟨by rw [if_pos h2]; exact List.mem_append_right _ (by simp),
                  hfree.2⟩
          · rw [if_neg h2]
            simp only [List.append_nil]
            refine ⟨hn, ?_⟩
            intro i hi
            exact ⟨by rw [if_neg h2]; exact (hm i hi).1, (hm i hi).2⟩

/-- The propagation step keeps the same accounting-side invariant. -/
theorem famPropStep_ctb_inv (db : DB) (st cs : String) (N p : Int)
    (m : Int × Int) (acc : FamAcc)
    (hn : (concSideIds acc.concRows .CTB).Nodup)
    (hm : ∀ i ∈ concSideIds acc.concRows .CTB,
      i ∈ acc.pendingCtb ∧ lockedOn db .CTB i = false) :
    (concSideIds (famPropStep db st cs N p acc m).concRows .CTB).Nodup ∧
    (∀ i ∈ concSideIds (famPropStep db st cs N p acc m).concRows .CTB,
      i ∈ (famPropStep db st cs N p acc m).pendingCtb ∧
        lockedOn db .CTB i = false) := by
  unfold famPropStep
  by_cases hskip : m.1 ∈ acc.pendingCtb ∨ (lockedOn db .CTB m.1 : Prop)
  · rw [if_pos hskip]; exact ⟨hn, hm⟩
  · rw [if_neg hskip]
    have hfree : m.1 ∉ acc.pendingCtb ∧ lockedOn db .CTB m.1 = false := by
      constructor
      · intro hmem; exact hskip (Or.inl hmem)
      · cases hh : lockedOn db .CTB m.1 with
        | false => rfl
        | true => exact absurd (Or.inr hh) hskip
    have e1 : concSideIds
        (if p > 0 then [(⟨Base.FIS, p, acc.nextParId⟩ : ConcRow)] else [])
        .CTB = [] := by
      by_cases h1 : 0 < p <;> simp [concSideIds, h1]
    dsimp only
    rw [concSideIds_append, concSideIds_append, e1]
    simp only [List.append_nil]
    have e2 : concSideIds
        [(⟨Base.CTB, m.1, acc.nextParId⟩ : ConcRow)] .CTB = [m.1] := by
      simp [concSideIds]
    rw [e2]
    constructor
    · rw [List.nodup_append]
      refine ⟨hn, by simp, ?_⟩
      intro i hi hi2
      rcases List.mem_singleton.mp hi2 with rfl
      exact hfree.1 (hm _ hi).1
    · intro i hi
      rcases List.mem_append.mp hi with hi | hi
      · exact ⟨List.mem_append_left _ (hm i hi).1, (hm i hi).2⟩
      · rcases List.mem_singleton.mp hi with rfl
        exact ⟨List.mem_append_right _ (by simp), hfree.2⟩

/-- The inner fold of one family keeps the accounting-side invariant. -/
theorem famPropFold_ctb (db : DB) (st cs : String) (N p : Int)
    (rows : List (Int × Int)) (acc : FamAcc)
    (hn : (concSideIds acc.concRows .CTB).Nodup)
    (hm : ∀ i ∈ concSideIds acc.concRows .CTB,
      i ∈ acc.pendingCtb ∧ lockedOn db .CTB i = false) :
    (concSideIds (rows.foldl (famPropStep db st cs N p) acc).concRows .CTB).Nodup ∧
    (∀ i ∈ concSideIds (rows.foldl (famPropStep db st cs N p) acc).concRows .CTB,
      i ∈ (rows.foldl (famPropStep db st cs N p) acc).pendingCtb ∧
        lockedOn db .CTB i = false) := by
  induction rows generalizing acc with
  | nil => exact ⟨hn, hm⟩
  | cons m ms ih =>
    rw [List.foldl_cons]
    obtain ⟨hn2, hm2⟩ := famPropStep_ctb_inv db st cs N p m acc hn hm
    exact ih (famPropStep db st cs N p acc m) hn2 hm2

/-- The whole propagation phase keeps the accounting-side invariant. -/
theorem famPropagate_fold_ctb_inv (db : DB) (st cs : String)
    (invs : List (Int × Int)) (acc : FamAcc)
    (hn : (concSideIds acc.concRows .CTB).Nodup)
    (hm : ∀ i ∈ concSideIds acc.concRows .CTB,
      i ∈ acc.pendingCtb ∧ lockedOn db .CTB i = false) :
    (concSideIds (invs.foldl (famPropagate db st cs) acc).concRows .CTB).Nodup ∧
    (∀ i ∈ concSideIds (invs.foldl (famPropagate db st cs) acc).concRows .CTB,
      i ∈ (invs.foldl (famPropagate db st cs) acc).pendingCtb ∧
        lockedOn db .CTB i = false) := by
  induction invs generalizing acc with
  | nil => exact ⟨hn, hm⟩
  | cons v vs ih =>
    rw [List.foldl_cons]
    apply ih
    all_goals
      unfold famPropagate
      by_cases hv : v.1 ≤ 0
    · rw [if_pos hv]; exact hn
    · rw [if_neg hv]
      exact (famPropFold_ctb db st cs v.1 v.2 (familyRows db v.1) acc hn hm).1
    · rw [if_pos hv]; exact hm
    · rw [if_neg hv]
      exact (famPropFold_ctb db st cs v.1 v.2 (familyRows db v.1) acc hn hm).2

/-- The main loop of `save_pairs_with_family` keeps the accounting-side
invariant. -/
theorem saveFamilyFold_ctb (db : DB) (st cs : String) (rest : List (Int × Int))
    (acc : FamAcc)
    (hn : (concSideIds acc.concRows .CTB).Nodup)
    (hm : ∀ i ∈ concSideIds acc.concRows .CTB,
      i ∈ acc.pendingCtb ∧ lockedOn db .CTB i = false) :
    (concSideIds (rest.foldl (saveFamilyStep db st cs) acc).concRows .CTB).Nodup ∧
    (∀ i ∈ concSideIds (rest.foldl (saveFamilyStep db st cs) acc).concRows .CTB,
      i ∈ (rest.foldl (saveFamilyStep db st cs) acc).pendingCtb ∧
        lockedOn db .CTB i = false) := by
  induction rest generalizing acc with
  | nil => exact ⟨hn, hm⟩
  | cons x xs ih =>
    rw [List.foldl_cons]
    obtain ⟨hn2, hm2⟩ := saveFamilyStep_ctb_inv db st cs acc x hn hm
    exact ih (saveFamilyStep db st cs acc x) hn2 hm2

/-- `save_pairs_with_family` preserves accounting-side lock uniqueness for
every batch: in-batch duplicates and propagated family members are fenced by
the pending-id set, previously locked ids by the lock check. -/
theorem save_family_ctb_nodup (db : DB) (pairs : List (Int × Int)) (st : String)
    (hinv : (concSideIds db.conciliados .CTB).Nodup) :
    (concSideIds (save_pairs_with_family db pairs st).2.conciliados .CTB).Nodup := by
  simp only [save_pairs_with_family]
  by_cases h0 : pairs = []
  · rw [if_pos h0]; exact hinv
  · rw [if_neg h0]
    obtain ⟨hn0, hm0⟩ := saveFamilyFold_ctb db st (child_status_for_origin st) pairs
      ⟨[], [], [], [], [], 0, maxParId db + 1⟩ (by simp [concSideIds]) (by simp [concSideIds])
    obtain ⟨hn1, hm1⟩ := famPropagate_fold_ctb_inv db st (child_status_for_origin st)
      (pairs.foldl (saveFamilyStep db st (child_status_for_origin st))
        ⟨[], [], [], [], [], 0, maxParId db + 1⟩).involved
      (pairs.foldl (saveFamilyStep db st (child_status_for_origin st))
        ⟨[], [], [], [], [], 0, maxParId db + 1⟩) hn0 hm0
    dsimp only
    rw [concSideIds_append, List.nodup_append]
    refine ⟨hinv, hn1, ?_⟩
    intro i hi hi2
    exact (unlocked_iff db .CTB i).mp (hm1 i hi2).2 hi

/-- **C1** (amended): `save_pairs` preserves the lock-table invariant — at
most one `conciliados` row per (side, recordId) — provided the batch repeats
no positive id on a side; and `save_pairs_with_family` unconditionally
preserves uniqueness of the accounting side (its physical side deliberately
reuses the family anchor, inserting one FIS row per family member, since the
SQLite table has no UNIQUE constraint to collapse them). -/
theorem lock_uniqueness_amended (db : DB) (pairs : List (Int × Int)) (st : String) :
    (locksNodup db → (posFst pairs).Nodup → (posSnd pairs).Nodup →
      locksNodup (save_pairs db pairs st).2) ∧
    ((concSideIds db.conciliados .CTB).Nodup →
      (concSideIds (save_pairs_with_family db pairs st).2.conciliados .CTB).Nodup) :=
  ⟨fun h1 h2 h3 => save_pairs_lock_nodup db pairs st h1 h2 h3,
    fun h => save_family_ctb_nodup db pairs st h⟩

/-- Witness for `lock_uniqueness_amended` on a concrete two-pair batch. -/
theorem lock_uniqueness_amended_witness :
    locksNodup (save_pairs batchDupDB [(1, 10), (2, 11)] "MANUAL").2 ∧
    (concSideIds (save_pairs_with_family famDupDB [(1, 10), (2, 11)]
      "MANUAL").2.conciliados .CTB).Nodup :=
  ⟨(lock_uniqueness_amended batchDupDB [(1, 10), (2, 11)] "MANUAL").1
      (by decide) (by decide) (by decide),
    (lock_uniqueness_amended famDupDB [(1, 10), (2, 11)] "MANUAL").2 (by decide)⟩

/-! ## Singleton family commit characterization (C10) -/

theorem insByLt_perm {α : Type} (lt : α → α → Bool) (x : α) (l : List α) :
    List.Perm (insByLt lt x l) (x :: l) := by
  induction l with
  | nil => exact List.Perm.refl _
  | cons y ys ih =>
    unfold insByLt
    by_cases h : lt y x
    · rw [if_pos h]
      exact (List.Perm.cons y ih).trans (List.Perm.swap x y ys)
    · rw [if_neg h]

theorem sortByLt_perm {α : Type} (lt : α → α → Bool) (l : List α) :
    List.Perm (sortByLt lt l) l := by
  induction l with
  | nil => exact List.Perm.refl _
  | cons x xs ih =>
    unfold sortByLt
    exact (insByLt_perm lt x (sortByLt lt xs)).trans (List.Perm.cons x ih)

/-- When the accounting table has unique ids, the family member list has
unique ids. -/
theorem familyRows_fst_nodup (db : DB) (N : Int)
    (hids : (db.contabil.map (fun t => t.id)).Nodup) :
    ((familyRows db N).map Prod.fst).Nodup := by
  have hperm : List.Perm ((familyRows db N).map Prod.fst)
      (((db.contabil.filter (fun c => c.nrbrm.getD 0 = N)).map
        (fun c => (c.id, c.inc.getD 0))).map Prod.fst) :=
    List.Perm.map Prod.fst (sortByLt_perm _ _)
  apply hperm.nodup_iff.mpr
  rw [List.map_map]
  exact hids.sublist (List.Sublist.map _ (List.filter_sublist _))

/-- Evaluation of the first loop of `save_pairs_with_family` on an admissible
single pair whose accounting side resolves. -/
theorem saveFamilyStep_single_eval (db : DB) (st cs : String) (p : Int) (c : CtbRec)
    (hfind : lookupCtb db c.id = some c) (hcid : 0 < c.id)
    (hlockF : 0 < p → lockedOn db .FIS p = false)
    (hlockC : lockedOn db .CTB c.id = false) :
    saveFamilyStep db st cs ⟨[], [], [], [], [], 0, maxParId db + 1⟩ (p, c.id) =
      ⟨[⟨maxParId db + 1, (if c.inc.getD 0 ≠ 0 then cs else st), p, c.id,
          c.nrbrm.getD 0, some (c.inc.getD 0)⟩],
        (if 0 < p then [⟨Base.FIS, p, maxParId db + 1⟩] else []) ++
          [⟨Base.CTB, c.id, maxParId db + 1⟩],
        (if 0 < p then [p] else []), [c.id], [(c.nrbrm.getD 0, p)], 1,
        maxParId db + 1 + 1⟩ := by
  unfold saveFamilyStep
  rw [if_neg (fun h => absurd h.2 (by omega)),
    if_neg (fun h => by rw [hlockF h.1] at h; exact absurd h.2 (by simp)),
    if_neg (fun h => by
      rcases h.2 with h2 | h2
      · exact absurd h2 (List.not_mem_nil _)
      · rw [hlockC] at h2; exact absurd h2 (by simp))]
  dsimp only
  simp only [hfind, Option.map_some']
  rw [if_pos hcid]
  simp only [Option.getD_some]
  by_cases hX : c.inc.getD 0 ≠ 0
  · rw [if_pos ⟨hcid, hX⟩, if_pos hX]
    simp [hcid]
  · rw [if_neg (fun h => hX h.2), if_neg hX]
    simp [hcid]

/-- Content of the rows inserted by one family's propagation fold: one row
per family member that is neither pending in this call nor already locked,
anchored to `p`, child status for INC ≠ 0 and main status for INC = 0.
Requires distinct member ids (from the table's id uniqueness). -/
theorem famPropFold_tuples (db : DB) (st cs : String) (N p : Int)
    (rows : List (Int × Int)) (acc : FamAcc)
    (hnd : (rows.map Prod.fst).Nodup) :
    ((rows.foldl (famPropStep db st cs N p) acc).deparaRows).map deparaTuple =
      acc.deparaRows.map deparaTuple ++
      (rows.filter (fun m =>
        !(decide (m.1 ∈ acc.pendingCtb) || lockedOn db .CTB m.1))).map
        (fun m => ((if m.2 ≠ 0 then cs else st), p, m.1, N, some m.2)) := by
  induction rows generalizing acc with
  | nil => simp
  | cons m ms ih =>
    rw [List.map_cons, List.nodup_cons] at hnd
    rw [List.foldl_cons, List.filter_cons]
    by_cases hskip : m.1 ∈ acc.pendingCtb ∨ (lockedOn db .CTB m.1 : Prop)
    · have hstep : famPropStep db st cs N p acc m = acc := by
        unfold famPropStep; rw [if_pos hskip]
      have hpred : (!(decide (m.1 ∈ acc.pendingCtb) || lockedOn db .CTB m.1)) = false := by
        rcases hskip with h | h <;> simp [h]
      rw [hstep, hpred]
      simpa using ih acc hnd.2
    · have hpend : m.1 ∉ acc.pendingCtb := fun h => hskip (Or.inl h)
      have hlock : lockedOn db .CTB m.1 = false := by
        cases hh : lockedOn db .CTB m.1 with
        | false => rfl
        | true => exact absurd (Or.inr hh) hskip
      have hpred : (!(decide (m.1 ∈ acc.pendingCtb) || lockedOn db .CTB m.1)) = true := by
        simp [hpend, hlock]
      have hstep : famPropStep db st cs N p acc m =
          { acc with
              deparaRows := acc.deparaRows ++
                [⟨acc.nextParId, (if m.2 ≠ 0 then cs else st), p, m.1, N, some m.2⟩]
              concRows := acc.concRows ++
                (if p > 0 then [⟨Base.FIS, p, acc.nextParId⟩] else []) ++
                [⟨Base.CTB, m.1, acc.nextParId⟩]
              pendingFis := if p > 0 then acc.pendingFis ++ [p] else acc.pendingFis
              pendingCtb := acc.pendingCtb ++ [m.1]
              saved := acc.saved + 1
              nextParId := acc.nextParId + 1 } := by
        unfold famPropStep; rw [if_neg hskip]
      rw [hstep, hpred]
      rw [ih _ hnd.2]
      dsimp only
      have hfc : ms.filter (fun x =>
            !(decide (x.1 ∈ acc.pendingCtb ++ [m.1]) || lockedOn db .CTB x.1)) =
          ms.filter (fun x =>
            !(decide (x.1 ∈ acc.pendingCtb) || lockedOn db .CTB x.1)) := by
        apply List.filter_congr
        intro x hx
        have hne : x.1 ≠ m.1 := fun he =>
          hnd.1 (he ▸ List.mem_map.mpr ⟨x, hx, rfl⟩)
        simp [List.mem_append, hne]
      rw [hfc]
      simp [deparaTuple]

/-- **C10** (amended): a `save_pairs_with_family` call on one admissible pair
whose accounting record exists and has group key NRBRM > 0 writes, in the same
transaction and without any caller choice, exactly the given pair followed by
one ledger row for every other accounting record sharing that NRBRM that is
not already locked (including the INC = 0 parent when the given record is a
child), each anchored to the same physical id, INC ≠ 0 rows tagged with the
derived child status and INC = 0 rows with the main status.  (When several
pairs of one batch share a NRBRM, the family is attached once, anchored to the
first such pair — see the counterexample.) -/
theorem family_completion_amended (db : DB) (p : Int) (c : CtbRec) (st : String)
    (hids : (db.contabil.map (fun t => t.id)).Nodup)
    (hfind : lookupCtb db c.id = some c) (hcid : 0 < c.id)
    (hnr : 0 < c.nrbrm.getD 0)
    (hlockF : 0 < p → lockedOn db .FIS p = false)
    (hlockC : lockedOn db .CTB c.id = false) :
    (save_pairs_with_family db [(p, c.id)] st).2.depara.map deparaTuple =
      db.depara.map deparaTuple ++
      ((if c.inc.getD 0 ≠ 0 then child_status_for_origin st else st), p, c.id,
        c.nrbrm.getD 0, some (c.inc.getD 0)) ::
      ((familyRows db (c.nrbrm.getD 0)).filter
        (fun m => !(decide (m.1 = c.id) || lockedOn db .CTB m.1))).map
        (fun m => ((if m.2 ≠ 0 then child_status_for_origin st else st), p, m.1,
          c.nrbrm.getD 0, some m.2)) := by
  simp only [save_pairs_with_family]
  rw [if_neg (List.cons_ne_nil _ _)]
  simp only [List.foldl_cons, List.foldl_nil]
  rw [saveFamilyStep_single_eval db st (child_status_for_origin st) p c hfind hcid
    hlockF hlockC]
  dsimp only
  rw [List.foldl_cons, List.foldl_nil]
  simp only [famPropagate]
  rw [if_neg (by omega)]
  rw [List.map_append,
    famPropFold_tuples db st (child_status_for_origin st) (c.nrbrm.getD 0) p
      (familyRows db (c.nrbrm.getD 0)) _ (familyRows_fst_nodup db _ hids)]
  dsimp only
  have hfc : (familyRows db (c.nrbrm.getD 0)).filter (fun m =>
        !(decide (m.1 ∈ [c.id]) || lockedOn db .CTB m.1)) =
      (familyRows db (c.nrbrm.getD 0)).filter (fun m =>
        !(decide (m.1 = c.id) || lockedOn db .CTB m.1)) := by
    apply List.filter_congr
    intro x hx
    simp [List.mem_singleton]
  rw [hfc]
  simp [deparaTuple]

/-- Witness for `family_completion_amended`: committing the child pair (1, 11)
of `fam2DB` attaches the parent 10 and the sibling 12, all anchored to 1. -/
theorem family_completion_amended_witness :
    (save_pairs_with_family fam2DB [(1, 11)] "MANUAL").2.depara.map deparaTuple =
      fam2DB.depara.map deparaTuple ++
      ("CM - INC", 1, 11, 100, some 5) ::
      ((familyRows fam2DB 100).filter
        (fun m => !(decide (m.1 = 11) || lockedOn fam2DB .CTB m.1))).map
        (fun m => ((if m.2 ≠ 0 then "CM - INC" else "MANUAL"), 1, m.1,
          (100 : Int), some m.2)) := by
  have := family_completion_amended fam2DB 1 (mkCtb 11 100 5) "MANUAL"
    (by decide) (by decide) (by decide) (by decide) (fun _ => by decide) (by decide)
  simpa using this

/-! ## Inverted index and shared-attribute counts of the similarity rule -/

theorem insertStr_nodup (s : List String) (x : String) (h : s.Nodup) :
    (insertStr s x).Nodup := by
  unfold insertStr
  by_cases hx : x ∈ s
  · rw [if_pos hx]; exact h
  · rw [if_neg hx]
    rw [List.nodup_append]
    refine ⟨h, List.nodup_singleton _, ?_⟩
    intro a ha hax
    rw [List.mem_singleton] at hax
    exact hx (hax ▸ ha)

theorem foldl_insertStr_nodup (l : List String) (init : List String) (h : init.Nodup) :
    (l.foldl insertStr init).Nodup := by
  induction l generalizing init with
  | nil => exact h
  | cons x xs ih => exact ih _ (insertStr_nodup init x h)

/-- The attribute set extracted from a description has no duplicates. -/
theorem descAttrSet_nodup (d : String) : (descAttrSet d).Nodup := by
  unfold descAttrSet
  by_cases h : d = ""
  · rw [if_pos h]; exact List.nodup_nil
  · rw [if_neg h]; exact foldl_insertStr_nodup _ _ List.nodup_nil

theorem invLookup_invInsert (inv : List (String × List Int)) (b : String) (cid : Int)
    (a : String) :
    invLookup (invInsert inv b cid) a =
      if a = b then invLookup inv a ++ [cid] else invLookup inv a := by
  induction inv with
  | nil =>
    by_cases hab : a = b
    · subst hab; simp [invInsert, invLookup]
    · have hba : ¬ b = a := fun h => hab h.symm
      simp [invInsert, invLookup, hab, hba]
  | cons e rest ih =>
    obtain ⟨k, l⟩ := e
    unfold invInsert
    by_cases hkb : k = b
    · subst hkb
      rw [if_pos rfl]
      unfold invLookup
      by_cases hka : k = a
      · subst hka
        simp
      · rw [if_neg hka, if_neg hka, if_neg (fun h => hka (Eq.symm h))]
    · rw [if_neg hkb]
      unfold invLookup
      by_cases hka : k = a
      · subst hka
        rw [if_pos rfl, if_pos rfl, if_neg hkb]
      · rw [if_neg hka, if_neg hka, ih]

theorem invLookup_attrFold (attrs : List String) (hnd : attrs.Nodup) (cid : Int)
    (inv : List (String × List Int)) (a : String) :
    invLookup (attrs.foldl (fun i x => invInsert i x cid) inv) a =
      invLookup inv a ++ (if a ∈ attrs then [cid] else []) := by
  induction attrs generalizing inv with
  | nil => simp
  | cons b rest ih =>
    rw [List.nodup_cons] at hnd
    rw [List.foldl_cons, ih hnd.2, invLookup_invInsert]
    by_cases hab : a = b
    · subst hab
      rw [if_pos rfl]
      simp [hnd.1]
    · rw [if_neg hab]
      by_cases har : a ∈ rest
      · simp [har, hab]
      · simp [har, hab]

theorem invLookup_buildInv_gen (cs : List CtbRec) (inv0 : List (String × List Int))
    (a : String) :
    invLookup (cs.foldl (fun inv c =>
        (descAttrSet (rowDesc c.descricao c.descNorm)).foldl
          (fun inv2 x => invInsert inv2 x c.id) inv) inv0) a =
      invLookup inv0 a ++
        (cs.filter (fun c =>
          a ∈ descAttrSet (rowDesc c.descricao c.descNorm))).map (fun c => c.id) := by
  induction cs generalizing inv0 with
  | nil => simp
  | cons c rest ih =>
    rw [List.foldl_cons, ih, invLookup_attrFold _ (descAttrSet_nodup _) c.id,
      List.filter_cons]
    by_cases hmem : a ∈ descAttrSet (rowDesc c.descricao c.descNorm)
    · simp [hmem]
    · simp [hmem]

/-- The inverted index maps each attribute to the ids of the accounting rows
whose attribute set contains it, in frame order. -/
theorem invLookup_buildInv (cs : List CtbRec) (a : String) :
    invLookup (buildInv cs) a =
      (cs.filter (fun c =>
        a ∈ descAttrSet (rowDesc c.descricao c.descNorm))).map (fun c => c.id) := by
  unfold buildInv
  rw [invLookup_buildInv_gen]
  simp [invLookup]

theorem lookupCount_nil (cid : Int) : lookupCount [] cid = 0 := rfl

theorem lookupCount_cons (k : Int) (n : Nat) (rest : List (Int × Nat)) (cid : Int) :
    lookupCount ((k, n) :: rest) cid = if k = cid then n else lookupCount rest cid := by
  unfold lookupCount
  by_cases hk : k = cid
  · rw [List.find?_cons_of_pos]
    · simp [hk]
    · simp [hk]
  · rw [List.find?_cons_of_neg]
    · simp [hk]
    · simp [hk]

theorem lookupCount_bump_self (cts : List (Int × Nat)) (cid : Int) :
    lookupCount (bumpCount cts cid) cid = lookupCount cts cid + 1 := by
  induction cts with
  | nil => simp [bumpCount, lookupCount_cons, lookupCount_nil]
  | cons e rest ih =>
    obtain ⟨k, n⟩ := e
    unfold bumpCount
    by_cases hk : k = cid
    · rw [if_pos hk, lookupCount_cons, lookupCount_cons, if_pos hk, if_pos hk]
    · rw [if_neg hk, lookupCount_cons, lookupCount_cons, if_neg hk, if_neg hk, ih]

theorem lookupCount_bump_other (cts : List (Int × Nat)) (cid cid2 : Int)
    (hne : cid2 ≠ cid) :
    lookupCount (bumpCount cts cid) cid2 = lookupCount cts cid2 := by
  induction cts with
  | nil =>
    have h2 : ¬ cid = cid2 := fun h => hne h.symm
    simp [bumpCount, lookupCount_cons, lookupCount_nil, h2]
  | cons e rest ih =>
    obtain ⟨k, n⟩ := e
    unfold bumpCount
    by_cases hk : k = cid
    · rw [if_pos hk, lookupCount_cons, lookupCount_cons]
      have hkc : ¬ k = cid2 := by
        rw [hk]; exact fun h => hne h.symm
      rw [if_neg hkc, if_neg hkc]
    · rw [if_neg hk, lookupCount_cons, lookupCount_cons, ih]

theorem lookupCount_bumpFold (l : List Int) (used : List Int) (cts : List (Int × Nat))
    (cid : Int) :
    lookupCount (l.foldl (fun c x => if x ∈ used then c else bumpCount c x) cts) cid =
      lookupCount cts cid + (if cid ∈ used then 0 else l.count cid) := by
  induction l generalizing cts with
  | nil => simp
  | cons x xs ih =>
    rw [List.foldl_cons]
    by_cases hxu : x ∈ used
    · rw [if_pos hxu, ih]
      by_cases hcu : cid ∈ used
      · simp [hcu]
      · have hxc : ¬ cid = x := by
          intro he; rw [he] at hcu; exact hcu hxu
        simp [hcu, List.count_cons, hxc]
    · rw [if_neg hxu, ih]
      by_cases hcu : cid ∈ used
      · have hne : cid ≠ x := by
          intro he; rw [he] at hcu; exact hxu hcu
        rw [lookupCount_bump_other cts x cid hne]
        simp [hcu]
      · by_cases hxc : x = cid
        · subst hxc
          rw [lookupCount_bump_self]
          simp [hcu, List.count_cons]
          omega
        · have hne : cid ≠ x := fun he => hxc he.symm
          rw [lookupCount_bump_other cts x cid hne]
          simp [hcu, List.count_cons, hne]

theorem lookupCount_buildCounts (inv : List (String × List Int)) (used : List Int)
    (fattrs : List String) (cid : Int) :
    lookupCount (buildCounts inv used fattrs) cid =
      if cid ∈ used then 0
      else (fattrs.map (fun a => (invLookup inv a).count cid)).sum := by
  have hgen : ∀ (l : List String) (cts : List (Int × Nat)),
      lookupCount (l.foldl (fun counts a =>
        (invLookup inv a).foldl
          (fun cts2 x => if x ∈ used then cts2 else bumpCount cts2 x) counts) cts) cid =
      lookupCount cts cid +
        (if cid ∈ used then 0
         else (l.map (fun a => (invLookup inv a).count cid)).sum) := by
    intro l
    induction l with
    | nil => intro cts; simp
    | cons a rest ih =>
      intro cts
      rw [List.foldl_cons, ih, lookupCount_bumpFold]
      by_cases hcu : cid ∈ used
      · simp [hcu]
      · simp [hcu]
        omega
  unfold buildCounts
  rw [hgen]
  simp [lookupCount_nil]

theorem bumpCount_keys (cts : List (Int × Nat)) (cid : Int) :
    (bumpCount cts cid).map Prod.fst =
      if cid ∈ cts.map Prod.fst then cts.map Prod.fst
      else cts.map Prod.fst ++ [cid] := by
  induction cts with
  | nil => simp [bumpCount]
  | cons e rest ih =>
    obtain ⟨k, n⟩ := e
    unfold bumpCount
    by_cases hk : k = cid
    · subst hk
      simp
    · rw [if_neg hk]
      have hkc : ¬ cid = k := fun h => hk h.symm
      by_cases hmem : cid ∈ rest.map Prod.fst
      · simp [ih, hmem, hkc]
      · simp [ih, hmem, hkc]

theorem bumpFold_keys (l used : List Int) (P : Int → Prop)
    (hl : ∀ x ∈ l, x ∉ used → P x) (cts : List (Int × Nat))
    (h0 : (cts.map Prod.fst).Nodup ∧ ∀ k ∈ cts.map Prod.fst, P k) :
    ((l.foldl (fun c x => if x ∈ used then c else bumpCount c x) cts).map
      Prod.fst).Nodup ∧
    ∀ k ∈ (l.foldl (fun c x => if x ∈ used then c else bumpCount c x) cts).map
      Prod.fst, P k := by
  induction l generalizing cts with
  | nil => exact h0
  | cons x xs ih =>
    rw [List.foldl_cons]
    by_cases hxu : x ∈ used
    · rw [if_pos hxu]
      exact ih (fun y hy hyu => hl y (List.mem_cons_of_mem _ hy) hyu) cts h0
    · rw [if_neg hxu]
      apply ih (fun y hy hyu => hl y (List.mem_cons_of_mem _ hy) hyu)
      constructor
      · rw [bumpCount_keys]
        by_cases hmem : x ∈ cts.map Prod.fst
        · rw [if_pos hmem]; exact h0.1
        · rw [if_neg hmem]
          rw [List.nodup_append]
          refine ⟨h0.1, List.nodup_singleton _, ?_⟩
          intro a ha hax
          rw [List.mem_singleton] at hax
          exact hmem (hax ▸ ha)
      · intro k hk
        rw [bumpCount_keys] at hk
        by_cases hmem : x ∈ cts.map Prod.fst
        · rw [if_pos hmem] at hk; exact h0.2 k hk
        · rw [if_neg hmem] at hk
          rcases List.mem_append.mp hk with h | h
          · exact h0.2 k h
          · rw [List.mem_singleton] at h
            subst h
            exact hl _ (List.mem_cons_self _ _) hxu

theorem buildCounts_keys (inv : List (String × List Int)) (used : List Int)
    (fattrs : List String) :
    ((buildCounts inv used fattrs).map Prod.fst).Nodup ∧
    ∀ k ∈ (buildCounts inv used fattrs).map Prod.fst,
      k ∉ used ∧ ∃ a ∈ fattrs, k ∈ invLookup inv a := by
  have hgen : ∀ (todo : List String), (∀ a ∈ todo, a ∈ fattrs) →
      ∀ (cts : List (Int × Nat)),
      ((cts.map Prod.fst).Nodup ∧ ∀ k ∈ cts.map Prod.fst,
        k ∉ used ∧ ∃ a ∈ fattrs, k ∈ invLookup inv a) →
      ((todo.foldl (fun counts a =>
          (invLookup inv a).foldl
            (fun cts2 x => if x ∈ used then cts2 else bumpCount cts2 x) counts)
          cts).map Prod.fst).Nodup ∧
      ∀ k ∈ (todo.foldl (fun counts a =>
          (invLookup inv a).foldl
            (fun cts2 x => if x ∈ used then cts2 else bumpCount cts2 x) counts)
          cts).map Prod.fst, k ∉ used ∧ ∃ a ∈ fattrs, k ∈ invLookup inv a := by
    intro todo
    induction todo with
    | nil => intro _ cts h0; exact h0
    | cons a rest ih =>
      intro hsub cts h0
      rw [List.foldl_cons]
      refine ih (fun b hb => hsub b (List.mem_cons_of_mem _ hb)) _ ?_
      exact bumpFold_keys (invLookup inv a) used _
        (fun x hx hxu => ⟨hxu, a, hsub a (List.mem_cons_self _ _), hx⟩) cts h0
  unfold buildCounts
  exact hgen fattrs (fun a ha => ha) [] ⟨List.nodup_nil, by simp⟩

theorem lookupCount_of_mem (cts : List (Int × Nat)) (hnd : (cts.map Prod.fst).Nodup)
    (e : Int × Nat) (he : e ∈ cts) : lookupCount cts e.1 = e.2 := by
  induction cts with
  | nil => cases he
  | cons d rest ih =>
    obtain ⟨k, n⟩ := d
    rw [List.map_cons, List.nodup_cons] at hnd
    rcases List.mem_cons.mp he with h | h
    · subst h
      rw [lookupCount_cons, if_pos rfl]
    · have hne : ¬ k = e.1 := by
        intro hk
        apply hnd.1
        rw [hk]
        exact List.mem_map.mpr ⟨e, h, rfl⟩
      rw [lookupCount_cons, if_neg hne]
      exact ih hnd.2 h

theorem lookupCount_pos_mem (cts : List (Int × Nat)) (k : Int)
    (h : lookupCount cts k ≠ 0) : (k, lookupCount cts k) ∈ cts := by
  unfold lookupCount at h ⊢
  cases hf : cts.find? (fun e => e.1 = k) with
  | none => rw [hf] at h; exact absurd rfl h
  | some e =>
    rw [hf] at h
    have he : e ∈ cts := List.mem_of_find?_eq_some hf
    have hk0 := List.find?_some hf
    have hk : e.1 = k := by simpa using hk0
    show (k, e.2) ∈ cts
    have hke : (k, e.2) = e := by rw [← hk]
    rw [hke]
    exact he

theorem count_id_filter (l : List CtbRec) (hnd : (l.map (fun c => c.id)).Nodup)
    (p : CtbRec → Bool) (c : CtbRec) (hc : c ∈ l) :
    ((l.filter p).map (fun r => r.id)).count c.id = if p c then 1 else 0 := by
  induction l with
  | nil => cases hc
  | cons d rest ih =>
    rw [List.map_cons, List.nodup_cons] at hnd
    rcases List.mem_cons.mp hc with h | h
    · subst h
      have hz : ((rest.filter p).map (fun r => r.id)).count c.id = 0 := by
        rw [List.count_eq_zero]
        intro hm
        rcases List.mem_map.mp hm with ⟨r, hr, hrid⟩
        exact hnd.1 (List.mem_map.mpr ⟨r, List.mem_of_mem_filter hr, hrid⟩)
      rw [List.filter_cons]
      by_cases hp : p c = true
      · rw [if_pos hp, List.map_cons, List.count_cons, hz]
        simp [hp]
      · rw [if_neg hp, hz, if_neg hp]
    · have hne : ¬ c.id = d.id := by
        intro heq
        apply hnd.1
        rw [← heq]
        exact List.mem_map.mpr ⟨c, h, rfl⟩
      rw [List.filter_cons]
      by_cases hpd : p d = true
      · rw [if_pos hpd, List.map_cons, List.count_cons]
        have hbe : ¬ ((d.id == c.id) = true) := by
          rw [beq_iff_eq]
          intro h2
          exact hne h2.symm
        rw [if_neg hbe, Nat.add_zero, ih hnd.2 h]
      · rw [if_neg hpd, ih hnd.2 h]

theorem length_filter_eq_sum_map (l : List String) (q : String → Prop)
    [DecidablePred q] :
    (l.map (fun a => if q a then (1 : Nat) else 0)).sum =
      (l.filter (fun a => decide (q a))).length := by
  induction l with
  | nil => rfl
  | cons a rest ih =>
    rw [List.map_cons, List.sum_cons, List.filter_cons]
    by_cases hq : q a
    · rw [if_pos hq, if_pos (decide_eq_true hq), List.length_cons, ih, Nat.add_comm]
    · rw [if_neg hq, if_neg (fun hh => hq (of_decide_eq_true hh)), ih, Nat.zero_add]

/-- The shared-attribute count computed for a physical row by the inverted
index equals the direct shared-signature score, except that used ids read 0. -/
theorem lookupCount_counts_score (dfC : List CtbRec)
    (hnd : (dfC.map (fun c => c.id)).Nodup) (used : List Int) (f : FisRec)
    (c : CtbRec) (hc : c ∈ dfC) :
    lookupCount (buildCounts (buildInv dfC) used
        (descAttrSet (rowDesc f.descricao f.descNorm))) c.id =
      if c.id ∈ used then 0 else rule6Score f c := by
  rw [lookupCount_buildCounts]
  by_cases hcu : c.id ∈ used
  · rw [if_pos hcu, if_pos hcu]
  · rw [if_neg hcu, if_neg hcu]
    have hmap : (descAttrSet (rowDesc f.descricao f.descNorm)).map
        (fun a => (invLookup (buildInv dfC) a).count c.id) =
      (descAttrSet (rowDesc f.descricao f.descNorm)).map
        (fun a => if a ∈ descAttrSet (rowDesc c.descricao c.descNorm)
          then (1 : Nat) else 0) := by
      apply List.map_congr_left
      intro a ha
      rw [invLookup_buildInv, count_id_filter dfC hnd _ c hc]
      simp
    rw [hmap]
    exact length_filter_eq_sum_map _ _

theorem pickBest_fold_snd (l : List (Int × Nat)) (st : Option Int × Nat) :
    st.2 ≤ (l.foldl (fun b e =>
      if 2 ≤ e.2 ∧ b.2 < e.2 then (some e.1, e.2) else b) st).2 ∧
    ∀ e ∈ l, 2 ≤ e.2 → e.2 ≤ (l.foldl (fun b e =>
      if 2 ≤ e.2 ∧ b.2 < e.2 then (some e.1, e.2) else b) st).2 := by
  induction l generalizing st with
  | nil => exact ⟨Nat.le_refl _, fun e he => absurd he (List.not_mem_nil e)⟩
  | cons x xs ih =>
    rw [List.foldl_cons]
    have h2 : st.2 ≤ (if 2 ≤ x.2 ∧ st.2 < x.2
        then ((some x.1, x.2) : Option Int × Nat) else st).2 := by
      by_cases hc : 2 ≤ x.2 ∧ st.2 < x.2
      · rw [if_pos hc]; exact Nat.le_of_lt hc.2
      · rw [if_neg hc]
    obtain ⟨ha, hb⟩ := ih (if 2 ≤ x.2 ∧ st.2 < x.2 then (some x.1, x.2) else st)
    refine ⟨Nat.le_trans h2 ha, ?_⟩
    intro e he h2e
    rcases List.mem_cons.mp he with rfl | hmem
    · refine Nat.le_trans ?_ ha
      by_cases hc : 2 ≤ e.2 ∧ st.2 < e.2
      · rw [if_pos hc]
      · rw [if_neg hc]
        push_neg at hc
        exact hc h2e
    · exact hb e hmem h2e

theorem pickBest_fold_result (l : List (Int × Nat)) (st : Option Int × Nat) :
    (l.foldl (fun b e =>
      if 2 ≤ e.2 ∧ b.2 < e.2 then (some e.1, e.2) else b) st) = st ∨
    ∃ e ∈ l, (l.foldl (fun b e =>
      if 2 ≤ e.2 ∧ b.2 < e.2 then (some e.1, e.2) else b) st) = (some e.1, e.2) ∧
      2 ≤ e.2 := by
  induction l generalizing st with
  | nil => exact Or.inl rfl
  | cons x xs ih =>
    rw [List.foldl_cons]
    by_cases hc : 2 ≤ x.2 ∧ st.2 < x.2
    · rw [if_pos hc]
      rcases ih (some x.1, x.2) with h | ⟨e, he, hres, h2⟩
      · exact Or.inr ⟨x, List.mem_cons_self _ _, h, hc.1⟩
      · exact Or.inr ⟨e, List.mem_cons_of_mem _ he, hres, h2⟩
    · rw [if_neg hc]
      rcases ih st with h | ⟨e, he, hres, h2⟩
      · exact Or.inl h
      · exact Or.inr ⟨e, List.mem_cons_of_mem _ he, hres, h2⟩

/-- A successful pickBest returns a key of the counts dict holding a maximal
value that is at least 2. -/
theorem pickBest_spec (cts : List (Int × Nat)) (b : Int) (h : pickBest cts = some b) :
    ∃ n, (b, n) ∈ cts ∧ 2 ≤ n ∧ ∀ e ∈ cts, e.2 ≤ n := by
  unfold pickBest at h
  rcases pickBest_fold_result cts (none, 0) with hres | ⟨e, he, hres, h2⟩
  · rw [hres] at h; simp at h
  · rw [hres] at h
    have h2b : some e.1 = some b := h
    have hb : e.1 = b := Option.some.inj h2b
    obtain ⟨_, hmax⟩ := pickBest_fold_snd cts (none, 0)
    refine ⟨e.2, ?_, h2, ?_⟩
    · have hee : ((b, e.2) : Int × Nat) = e := by rw [← hb]
      rw [hee]
      exact he
    · intro d hd
      have hm := hmax d hd
      rw [hres] at hm
      by_cases hd2 : 2 ≤ d.2
      · exact hm hd2
      · omega

/-- **C7** (amended): when the accounting frame carries distinct ids, an
accounting row is marked a candidate of the attribute-overlap similarity rule
for a physical row if and only if their effective descriptions share at least
2 signatures — a signature being the 3-character prefix of any alphanumeric
token of length ≥ 3 (not only alphabetic ones) or a raw numeric token of
length ≥ 2, extracted after stripping the label-prefixed segments. -/
theorem similarity_candidacy_amended (dfC : List CtbRec) (f : FisRec) (c : CtbRec)
    (hnd : (dfC.map (fun c => c.id)).Nodup) (hc : c ∈ dfC) :
    c.id ∈ rule6Hits dfC f ↔ 2 ≤ rule6Score f c := by
  have hsc : lookupCount (buildCounts (buildInv dfC) []
      (descAttrSet (rowDesc f.descricao f.descNorm))) c.id = rule6Score f c := by
    rw [lookupCount_counts_score dfC hnd [] f c hc, if_neg (List.not_mem_nil c.id)]
  have hkeys := buildCounts_keys (buildInv dfC) []
    (descAttrSet (rowDesc f.descricao f.descNorm))
  unfold rule6Hits
  constructor
  · intro hmem
    rcases List.mem_map.mp hmem with ⟨e, hef, heid⟩
    have he : e ∈ buildCounts (buildInv dfC) []
        (descAttrSet (rowDesc f.descricao f.descNorm)) := List.mem_of_mem_filter hef
    have h2 : 2 ≤ e.2 := by
      have h3 := (List.mem_filter.mp hef).2
      simpa using h3
    have hv := lookupCount_of_mem _ hkeys.1 e he
    rw [heid, hsc] at hv
    omega
  · intro h2
    have hne : lookupCount (buildCounts (buildInv dfC) []
        (descAttrSet (rowDesc f.descricao f.descNorm))) c.id ≠ 0 := by
      rw [hsc]; omega
    have hmem := lookupCount_pos_mem _ c.id hne
    rw [hsc] at hmem
    apply List.mem_map.mpr
    refine ⟨(c.id, rule6Score f c), ?_, rfl⟩
    apply List.mem_filter.mpr
    exact ⟨hmem, by simpa using h2⟩

/-- Witness for C7 on the chair example: CADEIRA GIRATORIA COURO PRETO vs
CADEIRA OFFICE COURO PRETO (3 shared signatures) in a frame also holding
CADEIRA AZUL (1 shared signature). -/
theorem similarity_candidacy_amended_witness :
    (([cadeiraCtb, cadeiraAzulCtb].map (fun c => c.id)).Nodup ∧
      cadeiraCtb ∈ [cadeiraCtb, cadeiraAzulCtb]) ∧
    (cadeiraCtb.id ∈ rule6Hits [cadeiraCtb, cadeiraAzulCtb] cadeiraFis ↔
      2 ≤ rule6Score cadeiraFis cadeiraCtb) :=
  ⟨⟨by decide, by decide⟩,
    similarity_candidacy_amended [cadeiraCtb, cadeiraAzulCtb] cadeiraFis cadeiraCtb
      (by decide) (by decide)⟩

/-! ## The greedy rule-6 allocator -/

theorem rule6Score_empty (f : FisRec) (c : CtbRec)
    (h : descAttrSet (rowDesc f.descricao f.descNorm) = []) : rule6Score f c = 0 := by
  unfold rule6Score sharedAttrCount
  rw [h]
  rfl

theorem concat_decomp {α : Type} (pre post ps : List α) (p x : α)
    (h : pre ++ p :: post = ps ++ [x]) :
    (∃ post2, ps = pre ++ p :: post2) ∨ (pre = ps ∧ p = x ∧ post = []) := by
  rcases List.eq_nil_or_concat post with hpost | ⟨post2, y, hpost⟩
  · subst hpost
    have h2 : pre ++ [p] = ps ++ [x] := h
    have h3 := List.append_inj' h2 rfl
    exact Or.inr ⟨h3.1, by simpa using h3.2, rfl⟩
  · rw [List.concat_eq_append] at hpost
    subst hpost
    rw [show pre ++ p :: (post2 ++ [y]) = (pre ++ p :: post2) ++ [y] by simp] at h
    have h3 := List.append_inj' h rfl
    exact Or.inl ⟨post2, h3.1.symm⟩

theorem pickBest_fold_split (l : List (Int × Nat)) (st : Option Int × Nat) :
    (l.foldl (fun b e =>
      if 2 ≤ e.2 ∧ b.2 < e.2 then (some e.1, e.2) else b) st) = st ∨
    ∃ c1 e c2, l = c1 ++ e :: c2 ∧
      (l.foldl (fun b e =>
        if 2 ≤ e.2 ∧ b.2 < e.2 then (some e.1, e.2) else b) st) = (some e.1, e.2) ∧
      2 ≤ e.2 ∧ st.2 < e.2 ∧ ∀ d ∈ c1, d.2 < e.2 := by
  induction l generalizing st with
  | nil => exact Or.inl rfl
  | cons x xs ih =>
    rw [List.foldl_cons]
    by_cases hc : 2 ≤ x.2 ∧ st.2 < x.2
    · rw [if_pos hc]
      rcases ih (some x.1, x.2) with h | ⟨c1, e, c2, hdec, hres, h2, hlt, hall⟩
      · exact Or.inr ⟨[], x, xs, rfl, h, hc.1, hc.2, by simp⟩
      · refine Or.inr ⟨x :: c1, e, c2, by rw [hdec]; rfl, hres, h2, ?_, ?_⟩
        · exact Nat.lt_trans hc.2 hlt
        · intro d hd
          rcases List.mem_cons.mp hd with rfl | hdm
          · exact hlt
          · exact hall d hdm
    · rw [if_neg hc]
      rcases ih st with h | ⟨c1, e, c2, hdec, hres, h2, hlt, hall⟩
      · exact Or.inl h
      · refine Or.inr ⟨x :: c1, e, c2, by rw [hdec]; rfl, hres, h2, hlt, ?_⟩
        intro d hd
        rcases List.mem_cons.mp hd with rfl | hdm
        · push_neg at hc
          by_cases hx2 : 2 ≤ d.2
          · exact Nat.lt_of_le_of_lt (hc hx2) hlt
          · omega
        · exact hall d hdm

/-- A successful pickBest returns the first key of the counts dict attaining
its maximum: every earlier key holds a strictly smaller count. -/
theorem pickBest_split (cts : List (Int × Nat)) (b : Int) (h : pickBest cts = some b) :
    ∃ n c1 c2, cts = c1 ++ (b, n) :: c2 ∧ 2 ≤ n ∧ ∀ d ∈ c1, d.2 < n := by
  unfold pickBest at h
  rcases pickBest_fold_split cts (none, 0) with hres |
    ⟨c1, e, c2, hdec, hres, h2, _, hall⟩
  · rw [hres] at h; simp at h
  · rw [hres] at h
    have h2b : some e.1 = some b := h
    have hb : e.1 = b := Option.some.inj h2b
    refine ⟨e.2, c1, c2, ?_, h2, hall⟩
    rw [← hb]
    exact hdec

/-- One step of the rule-6 greedy loop preserves the allocator invariants and
pairs the current physical row whenever it still has an unused candidate of
score at least 2. -/
theorem greedy6Step_inv (dfF : List FisRec) (dfC : List CtbRec)
    (hnd : (dfC.map (fun c => c.id)).Nodup) (f : FisRec) (hf : f ∈ dfF)
    (acc : List Int × List (Int × Int))
    (h1 : acc.1 = acc.2.map Prod.snd) (h2 : acc.1.Nodup)
    (h3 : ∀ pre p post, acc.2 = pre ++ p :: post → greedyEntrySpec dfF dfC pre p) :
    ((greedy6Step (buildInv dfC) acc f).1 =
        (greedy6Step (buildInv dfC) acc f).2.map Prod.snd) ∧
    (greedy6Step (buildInv dfC) acc f).1.Nodup ∧
    (∀ pre p post, (greedy6Step (buildInv dfC) acc f).2 = pre ++ p :: post →
      greedyEntrySpec dfF dfC pre p) ∧
    (∀ x ∈ acc.1, x ∈ (greedy6Step (buildInv dfC) acc f).1) ∧
    (∀ q ∈ acc.2, q ∈ (greedy6Step (buildInv dfC) acc f).2) ∧
    ((∃ c ∈ dfC, c.id ∉ acc.1 ∧ 2 ≤ rule6Score f c) →
      f.id ∈ (greedy6Step (buildInv dfC) acc f).2.map Prod.fst) := by
  by_cases hfa : descAttrSet (rowDesc f.descricao f.descNorm) = []
  · have hstep : greedy6Step (buildInv dfC) acc f = acc := by
      simp [greedy6Step, hfa]
    rw [hstep]
    refine ⟨h1, h2, h3, fun x hx => hx, fun q hq => hq, ?_⟩
    rintro ⟨c, hc, _, hsc⟩
    rw [rule6Score_empty f c hfa] at hsc
    omega
  · cases hpk : pickBest (buildCounts (buildInv dfC) acc.1
        (descAttrSet (rowDesc f.descricao f.descNorm))) with
    | none =>
      have hstep : greedy6Step (buildInv dfC) acc f = acc := by
        simp [greedy6Step, hfa, hpk]
      rw [hstep]
      refine ⟨h1, h2, h3, fun x hx => hx, fun q hq => hq, ?_⟩
      rintro ⟨c, hc, hcu, hsc⟩
      have hl : lookupCount (buildCounts (buildInv dfC) acc.1
          (descAttrSet (rowDesc f.descricao f.descNorm))) c.id = rule6Score f c := by
        rw [lookupCount_counts_score dfC hnd acc.1 f c hc, if_neg hcu]
      have hne0 : lookupCount (buildCounts (buildInv dfC) acc.1
          (descAttrSet (rowDesc f.descricao f.descNorm))) c.id ≠ 0 := by
        rw [hl]; omega
      have hmem := lookupCount_pos_mem _ c.id hne0
      unfold pickBest at hpk
      rcases pickBest_fold_result (buildCounts (buildInv dfC) acc.1
          (descAttrSet (rowDesc f.descricao f.descNorm))) (none, 0) with hres |
          ⟨e, _, hres, _⟩
      · obtain ⟨_, hmax⟩ := pickBest_fold_snd (buildCounts (buildInv dfC) acc.1
          (descAttrSet (rowDesc f.descricao f.descNorm))) (none, 0)
        have h2c := hmax _ hmem (by rw [hl]; omega)
        rw [hres] at h2c
        simp at h2c
        rw [hl] at h2c
        omega
      · rw [hres] at hpk
        simp at hpk
    | some best =>
      have hstep : greedy6Step (buildInv dfC) acc f =
          (acc.1 ++ [best], acc.2 ++ [(f.id, best)]) := by
        simp [greedy6Step, hfa, hpk]
      obtain ⟨n, cts1, cts2, hdec, hn2, hallc1⟩ := pickBest_split _ best hpk
      obtain ⟨n2, hmem2, h2n2, hmax⟩ := pickBest_spec _ best hpk
      have hkeys := buildCounts_keys (buildInv dfC) acc.1
        (descAttrSet (rowDesc f.descricao f.descNorm))
      have hbmem : ((best, n) : Int × Nat) ∈ buildCounts (buildInv dfC) acc.1
          (descAttrSet (rowDesc f.descricao f.descNorm)) := by
        rw [hdec]; exact List.mem_append_right _ (List.mem_cons_self _ _)
      have hbkey : best ∈ (buildCounts (buildInv dfC) acc.1
          (descAttrSet (rowDesc f.descricao f.descNorm))).map Prod.fst :=
        List.mem_map.mpr ⟨(best, n), hbmem, rfl⟩
      obtain ⟨hbu, a, ha, hbinv⟩ := hkeys.2 best hbkey
      rw [invLookup_buildInv] at hbinv
      rcases List.mem_map.mp hbinv with ⟨c, hcf, hcid⟩
      have hcdf : c ∈ dfC := List.mem_of_mem_filter hcf
      have hlook : lookupCount (buildCounts (buildInv dfC) acc.1
          (descAttrSet (rowDesc f.descricao f.descNorm))) best = n :=
        lookupCount_of_mem _ hkeys.1 (best, n) hbmem
      have hlook2 : lookupCount (buildCounts (buildInv dfC) acc.1
          (descAttrSet (rowDesc f.descricao f.descNorm))) best = n2 :=
        lookupCount_of_mem _ hkeys.1 (best, n2) hmem2
      have hnn : n2 = n := by rw [← hlook, ← hlook2]
      have hcu : c.id ∉ acc.1 := by rw [hcid]; exact hbu
      have hscore : n = rule6Score f c := by
        rw [← hlook, ← hcid,
          lookupCount_counts_score dfC hnd acc.1 f c hcdf, if_neg hcu]
      have hmaxc : ∀ c3 ∈ dfC, c3.id ∉ acc.1 → rule6Score f c3 ≤ rule6Score f c := by
        intro c3 hc3 hc3u
        have hl3 : lookupCount (buildCounts (buildInv dfC) acc.1
            (descAttrSet (rowDesc f.descricao f.descNorm))) c3.id =
            rule6Score f c3 := by
          rw [lookupCount_counts_score dfC hnd acc.1 f c3 hc3, if_neg hc3u]
        by_cases h0 : rule6Score f c3 = 0
        · rw [h0]; omega
        · have hne0 : lookupCount (buildCounts (buildInv dfC) acc.1
              (descAttrSet (rowDesc f.descricao f.descNorm))) c3.id ≠ 0 := by
            rw [hl3]; exact h0
          have hm3 := lookupCount_pos_mem _ c3.id hne0
          have hle : lookupCount (buildCounts (buildInv dfC) acc.1
              (descAttrSet (rowDesc f.descricao f.descNorm))) c3.id ≤ n2 :=
            hmax _ hm3
          rw [hl3, hnn, hscore] at hle
          exact hle
      rw [hstep]
      refine ⟨?_, ?_, ?_, ?_, ?_, ?_⟩
      · rw [List.map_append, ← h1]
        rfl
      · rw [List.nodup_append]
        refine ⟨h2, List.nodup_singleton _, ?_⟩
        intro x hx hxb
        rw [List.mem_singleton] at hxb
        exact hbu (hxb ▸ hx)
      · intro pre p post hdecomp
        rcases concat_decomp pre post acc.2 p (f.id, best) hdecomp.symm with
          ⟨post2, hold⟩ | ⟨hpre, hp, _⟩
        · exact h3 pre p post2 hold
        · subst hpre
          subst hp
          unfold greedyEntrySpec
          refine ⟨f, hf, c, hcdf, ?_, ?_, ?_, ?_, ?_⟩
          · rw [hcid]
          · rw [← hscore]; exact hn2
          · rw [← h1]; exact hcu
          · intro c3 hc3 hc3u
            rw [← h1] at hc3u
            exact hmaxc c3 hc3 hc3u
          · refine ⟨cts1, cts2, ?_, ?_⟩
            · rw [← h1, hcid, ← hscore]
              exact hdec
            · rw [← hscore]
              exact hallc1
      · intro x hx
        exact List.mem_append_left _ hx
      · intro q hq
        exact List.mem_append_left _ hq
      · intro _
        rw [List.map_append]
        apply List.mem_append_right
        simp

/-- The rule-6 greedy fold preserves the allocator invariants and pairs every
processed physical row that retains an unused candidate at the end. -/
theorem greedy6_fold (dfF : List FisRec) (dfC : List CtbRec)
    (hnd : (dfC.map (fun c => c.id)).Nodup)
    (l : List FisRec) (hsub : ∀ f ∈ l, f ∈ dfF)
    (acc : List Int × List (Int × Int))
    (h1 : acc.1 = acc.2.map Prod.snd) (h2 : acc.1.Nodup)
    (h3 : ∀ pre p post, acc.2 = pre ++ p :: post → greedyEntrySpec dfF dfC pre p) :
    ((l.foldl (greedy6Step (buildInv dfC)) acc).1 =
        (l.foldl (greedy6Step (buildInv dfC)) acc).2.map Prod.snd) ∧
    (l.foldl (greedy6Step (buildInv dfC)) acc).1.Nodup ∧
    (∀ pre p post, (l.foldl (greedy6Step (buildInv dfC)) acc).2 = pre ++ p :: post →
      greedyEntrySpec dfF dfC pre p) ∧
    (∀ x ∈ acc.1, x ∈ (l.foldl (greedy6Step (buildInv dfC)) acc).1) ∧
    (∀ q ∈ acc.2, q ∈ (l.foldl (greedy6Step (buildInv dfC)) acc).2) ∧
    (∀ f ∈ l, (∃ c ∈ dfC, c.id ∉ (l.foldl (greedy6Step (buildInv dfC)) acc).1 ∧
        2 ≤ rule6Score f c) →
      f.id ∈ (l.foldl (greedy6Step (buildInv dfC)) acc).2.map Prod.fst) := by
  induction l generalizing acc with
  | nil =>
    exact ⟨h1, h2, h3, fun x hx => hx, fun q hq => hq,
      fun f hf => absurd hf (List.not_mem_nil f)⟩
  | cons g gs ih =>
    rw [List.foldl_cons]
    obtain ⟨s1, s2, s3, s4, s5, s6⟩ := greedy6Step_inv dfF dfC hnd g
      (hsub g (List.mem_cons_self _ _)) acc h1 h2 h3
    obtain ⟨A, B, C, D1, D2, E⟩ := ih (fun q hq => hsub q (List.mem_cons_of_mem _ hq))
      (greedy6Step (buildInv dfC) acc g) s1 s2 s3
    refine ⟨A, B, C, fun x hx => D1 x (s4 x hx), fun q hq => D2 q (s5 q hq), ?_⟩
    intro f hf hex
    rcases List.mem_cons.mp hf with rfl | hfm
    · rcases hex with ⟨c, hc, hcu, hsc⟩
      have hcu0 : c.id ∉ acc.1 := fun hin => hcu (D1 _ (s4 _ hin))
      have hgid := s6 ⟨c, hc, hcu0, hsc⟩
      rcases List.mem_map.mp hgid with ⟨q, hq, hqf⟩
      exact List.mem_map.mpr ⟨q, D2 q hq, hqf⟩
    · exact E f hfm hex

/-- **C6**: under distinct accounting ids, the rule-6 pairing of
`load_pairs_auto02` is the greedy best-first allocation: no accounting id is
used twice; every produced pair, given the pairs before it, joins a physical
row of the frame to an unused accounting row whose shared-signature count is
maximal among unused rows and at least 2, the chosen id being the first key
of the (first-seen-ordered) counts dict attaining that maximum; and every
physical row that still has an unused candidate of count ≥ 2 at the end was
in fact paired. -/
theorem greedy_allocator_spec (dfF : List FisRec) (dfC : List CtbRec)
    (hnd : (dfC.map (fun c => c.id)).Nodup) :
    ((load_pairs_auto02_rule6 dfF dfC).map Prod.snd).Nodup ∧
    (∀ pre p post, load_pairs_auto02_rule6 dfF dfC = pre ++ p :: post →
      greedyEntrySpec dfF dfC pre p) ∧
    (∀ f ∈ dfF, (∃ c ∈ dfC,
        c.id ∉ (load_pairs_auto02_rule6 dfF dfC).map Prod.snd ∧
        2 ≤ rule6Score f c) →
      f.id ∈ (load_pairs_auto02_rule6 dfF dfC).map Prod.fst) := by
  have h30 : ∀ pre (p : Int × Int) post, ([] : List (Int × Int)) = pre ++ p :: post →
      greedyEntrySpec dfF dfC pre p := by
    intro pre p post h
    exact absurd h.symm (by simp)
  obtain ⟨hA, hB, hC, _, _, hE⟩ := greedy6_fold dfF dfC hnd dfF (fun f hf => hf)
    (([], []) : List Int × List (Int × Int)) rfl List.nodup_nil h30
  unfold load_pairs_auto02_rule6
  refine ⟨?_, ?_, ?_⟩
  · rw [← hA]; exact hB
  · intro pre p post h
    exact hC pre p post h
  · intro f hf hex
    rcases hex with ⟨c, hc, hcu, hsc⟩
    refine hE f hf ⟨c, hc, ?_, hsc⟩
    rw [hA]
    exact hcu

/-- Witness for C6 on the chair frames: one physical row, two accounting
rows with distinct ids. -/
theorem greedy_allocator_spec_witness :
    ([cadeiraCtb, cadeiraAzulCtb].map (fun c => c.id)).Nodup ∧
    (((load_pairs_auto02_rule6 [cadeiraFis] [cadeiraCtb, cadeiraAzulCtb]).map
        Prod.snd).Nodup ∧
      (∀ pre p post,
          load_pairs_auto02_rule6 [cadeiraFis] [cadeiraCtb, cadeiraAzulCtb] =
            pre ++ p :: post →
          greedyEntrySpec [cadeiraFis] [cadeiraCtb, cadeiraAzulCtb] pre p) ∧
      (∀ f ∈ [cadeiraFis], (∃ c ∈ [cadeiraCtb, cadeiraAzulCtb],
          c.id ∉ (load_pairs_auto02_rule6 [cadeiraFis]
            [cadeiraCtb, cadeiraAzulCtb]).map Prod.snd ∧
          2 ≤ rule6Score f c) →
        f.id ∈ (load_pairs_auto02_rule6 [cadeiraFis]
          [cadeiraCtb, cadeiraAzulCtb]).map Prod.fst)) :=
  ⟨by decide,
    greedy_allocator_spec [cadeiraFis] [cadeiraCtb, cadeiraAzulCtb] (by decide)⟩

/-! ## Rank combinatorics of the 1:1 pairing (rank method "first") -/

theorem withRank_eq (rows : List (Int × Int)) :
    withRank rows = rows.enum.map (fun e => (e.2.1, e.2.2, rankOf rows e)) := rfl

theorem one_le_rankOf (rows : List (Int × Int)) (e : Nat × (Int × Int)) :
    1 ≤ rankOf rows e := by
  unfold rankOf
  omega

theorem exists_enum_of_mem {α : Type} (l : List α) (v : α) (hv : v ∈ l) :
    ∃ p, (p, v) ∈ l.enum := by
  rcases List.mem_iff_get?.mp hv with ⟨n, hn⟩
  exact ⟨n, List.mem_enum_iff_get?.mpr hn⟩

theorem mem_of_mem_enum2 {α : Type} (l : List α) (p : Nat) (v : α)
    (h : (p, v) ∈ l.enum) : v ∈ l := by
  have h2 := List.mem_enum_iff_get?.mp h
  exact List.mem_iff_get?.mpr ⟨p, h2⟩

theorem enum_functional {α : Type} (l : List α) (p : Nat) (v w : α)
    (h1 : (p, v) ∈ l.enum) (h2 : (p, w) ∈ l.enum) : v = w := by
  have e1 := List.mem_enum_iff_get?.mp h1
  have e2 := List.mem_enum_iff_get?.mp h2
  rw [e1] at e2
  exact Option.some.inj e2

theorem enum_nodup {α : Type} (l : List α) : l.enum.Nodup := by
  apply List.Nodup.of_map Prod.fst
  rw [List.enum_map_fst]
  exact List.nodup_range _

theorem enumLt_trans (a b c : Nat × (Int × Int))
    (h1 : a.2.1 < b.2.1 ∨ (a.2.1 = b.2.1 ∧ a.1 < b.1))
    (h2 : b.2.1 < c.2.1 ∨ (b.2.1 = c.2.1 ∧ b.1 < c.1)) :
    a.2.1 < c.2.1 ∨ (a.2.1 = c.2.1 ∧ a.1 < c.1) := by
  rcases h1 with h1 | ⟨h1e, h1p⟩ <;> rcases h2 with h2 | ⟨h2e, h2p⟩
  · exact Or.inl (lt_trans h1 h2)
  · exact Or.inl (h2e ▸ h1)
  · exact Or.inl (h1e ▸ h2)
  · exact Or.inr ⟨h1e.trans h2e, Nat.lt_trans h1p h2p⟩

theorem enumLt_total (l : List (Int × Int)) (q e : Nat × (Int × Int))
    (hq : q ∈ l.enum) (he : e ∈ l.enum) (hne : q ≠ e) :
    (q.2.1 < e.2.1 ∨ (q.2.1 = e.2.1 ∧ q.1 < e.1)) ∨
    (e.2.1 < q.2.1 ∨ (e.2.1 = q.2.1 ∧ e.1 < q.1)) := by
  by_cases hp : q.1 = e.1
  · exfalso
    have hq2 : (q.1, q.2) ∈ l.enum := hq
    have he2 : (q.1, e.2) ∈ l.enum := by rw [hp]; exact he
    have hv : q.2 = e.2 := enum_functional l q.1 q.2 e.2 hq2 he2
    exact hne (Prod.ext hp hv)
  · rcases lt_trichotomy q.2.1 e.2.1 with h | h | h
    · exact Or.inl (Or.inl h)
    · rcases Nat.lt_or_ge q.1 e.1 with hlt | hge
      · exact Or.inl (Or.inr ⟨h, hlt⟩)
      · have hgt : e.1 < q.1 := Nat.lt_of_le_of_ne hge (fun hh => hp hh.symm)
        exact Or.inr (Or.inr ⟨h.symm, hgt⟩)
    · exact Or.inr (Or.inl h)

theorem exists_max_of_total {α : Type} (R : α → α → Prop)
    (hTrans : ∀ a b c, R a b → R b c → R a c)
    (l : List α) (hne : l ≠ [])
    (hTot : ∀ a ∈ l, ∀ b ∈ l, a = b ∨ R a b ∨ R b a) :
    ∃ m ∈ l, ∀ p ∈ l, p = m ∨ R p m := by
  induction l with
  | nil => exact absurd rfl hne
  | cons a t ih =>
    rcases eq_or_ne t [] with rfl | hte
    · refine ⟨a, List.mem_cons_self _ _, ?_⟩
      intro p hp
      rcases List.mem_cons.mp hp with h | h
      · exact Or.inl h
      · exact absurd h (List.not_mem_nil p)
    · obtain ⟨m, hm, hmax⟩ := ih hte (fun x hx y hy =>
        hTot x (List.mem_cons_of_mem _ hx) y (List.mem_cons_of_mem _ hy))
      have hma := hTot a (List.mem_cons_self _ _) m (List.mem_cons_of_mem _ hm)
      rcases hma with heq | hR | hR
      · refine ⟨m, List.mem_cons_of_mem _ hm, ?_⟩
        intro p hp
        rcases List.mem_cons.mp hp with rfl | hpt
        · exact Or.inl heq
        · exact hmax p hpt
      · refine ⟨m, List.mem_cons_of_mem _ hm, ?_⟩
        intro p hp
        rcases List.mem_cons.mp hp with rfl | hpt
        · exact Or.inr hR
        · exact hmax p hpt
      · refine ⟨a, List.mem_cons_self _ _, ?_⟩
        intro p hp
        rcases List.mem_cons.mp hp with rfl | hpt
        · exact Or.inl rfl
        · rcases hmax p hpt with rfl | hpm
          · exact Or.inr hR
          · exact Or.inr (hTrans p m a hpm hR)

theorem rank_pred_attained (rows : List (Int × Int)) (e : Nat × (Int × Int))
    (he : e ∈ rows.enum) (h2 : 2 ≤ rankOf rows e) :
    ∃ q ∈ rows.enum, q.2.2 = e.2.2 ∧ rankOf rows q + 1 = rankOf rows e := by
  have hSlen : rankOf rows e = 1 + (rows.enum.filter (fun q =>
      q.2.2 = e.2.2 ∧ (q.2.1 < e.2.1 ∨ (q.2.1 = e.2.1 ∧ q.1 < e.1)))).length := rfl
  set S := rows.enum.filter (fun q =>
    q.2.2 = e.2.2 ∧ (q.2.1 < e.2.1 ∨ (q.2.1 = e.2.1 ∧ q.1 < e.1))) with hS
  have hSne : S ≠ [] := by
    intro hnil
    rw [hnil] at hSlen
    simp at hSlen
    omega
  have htot : ∀ a ∈ S, ∀ b ∈ S, a = b ∨
      (a.2.1 < b.2.1 ∨ (a.2.1 = b.2.1 ∧ a.1 < b.1)) ∨
      (b.2.1 < a.2.1 ∨ (b.2.1 = a.2.1 ∧ b.1 < a.1)) := by
    intro a ha b hb
    by_cases hab : a = b
    · exact Or.inl hab
    · exact Or.inr (enumLt_total rows a b (List.mem_of_mem_filter ha)
        (List.mem_of_mem_filter hb) hab)
  obtain ⟨m, hmS, hmax⟩ := exists_max_of_total
    (fun q p => q.2.1 < p.2.1 ∨ (q.2.1 = p.2.1 ∧ q.1 < p.1))
    (fun a b c hab hbc => enumLt_trans a b c hab hbc) S hSne htot
  have hmE : m ∈ rows.enum := List.mem_of_mem_filter hmS
  have hmP : m.2.2 = e.2.2 ∧ (m.2.1 < e.2.1 ∨ (m.2.1 = e.2.1 ∧ m.1 < e.1)) := by
    have h3 := (List.mem_filter.mp hmS).2
    simpa using h3
  refine ⟨m, hmE, hmP.1, ?_⟩
  have hbe : ∀ (a b : Bool), (a = true ↔ b = true) → a = b := by decide
  have hpointwise : ∀ q ∈ rows.enum,
      (decide (q.2.2 = m.2.2 ∧ (q.2.1 < m.2.1 ∨ (q.2.1 = m.2.1 ∧ q.1 < m.1)))) =
      ((q != m) && decide (q.2.2 = e.2.2 ∧
        (q.2.1 < e.2.1 ∨ (q.2.1 = e.2.1 ∧ q.1 < e.1)))) := by
    intro q hq
    apply hbe
    simp only [decide_eq_true_eq, Bool.and_eq_true, bne_iff_ne]
    constructor
    · rintro ⟨hkey, hlt⟩
      have hqm : q ≠ m := by
        intro hh
        subst hh
        rcases hlt with hlt | ⟨_, hlt⟩
        · exact absurd hlt (lt_irrefl _)
        · exact absurd hlt (lt_irrefl _)
      exact ⟨hqm, hkey.trans hmP.1, enumLt_trans q m e hlt hmP.2⟩
    · rintro ⟨hqm, hkey, hlt⟩
      have hqS : q ∈ S := by
        rw [hS]
        apply List.mem_filter.mpr
        refine ⟨hq, ?_⟩
        simp only [decide_eq_true_eq]
        exact ⟨hkey, hlt⟩
      rcases hmax q hqS with heq | hlt2
      · exact absurd heq hqm
      · exact ⟨hkey.trans hmP.1.symm, hlt2⟩
  have hfilter : rows.enum.filter (fun q =>
      q.2.2 = m.2.2 ∧ (q.2.1 < m.2.1 ∨ (q.2.1 = m.2.1 ∧ q.1 < m.1))) =
      S.filter (fun q => q != m) := by
    rw [hS, List.filter_filter]
    exact List.filter_congr hpointwise
  have hSnodup : S.Nodup := (List.filter_sublist _).nodup (enum_nodup rows)
  have herase : S.filter (fun q => q != m) = S.erase m :=
    (List.Nodup.erase_eq_filter hSnodup m).symm
  have hlen : (S.filter (fun q => q != m)).length = S.length - 1 := by
    rw [herase]
    exact List.length_erase_of_mem hmS
  have hrm : rankOf rows m = 1 + (S.length - 1) := by
    have hrfl : rankOf rows m = 1 + (rows.enum.filter (fun q =>
        q.2.2 = m.2.2 ∧ (q.2.1 < m.2.1 ∨ (q.2.1 = m.2.1 ∧ q.1 < m.1)))).length := rfl
    rw [hrfl, hfilter, hlen]
  have hSpos : 0 < S.length := List.length_pos.mpr hSne
  rw [hrm, hSlen]
  omega

theorem rank_attained_aux (rows : List (Int × Int)) :
    ∀ (n : Nat) (e : Nat × (Int × Int)), e ∈ rows.enum → ∀ r, 1 ≤ r →
      r ≤ rankOf rows e → rankOf rows e ≤ r + n →
      ∃ q ∈ rows.enum, q.2.2 = e.2.2 ∧ rankOf rows q = r := by
  intro n
  induction n with
  | zero =>
    intro e he r h1 hle hub
    exact ⟨e, he, rfl, by omega⟩
  | succ k ih =>
    intro e he r h1 hle hub
    by_cases heq : rankOf rows e = r
    · exact ⟨e, he, rfl, heq⟩
    · have h2 : 2 ≤ rankOf rows e := by omega
      obtain ⟨q, hq, hkey, hrk⟩ := rank_pred_attained rows e he h2
      obtain ⟨q2, hq2, hkey2, hr2⟩ := ih q hq r h1 (by omega) (by omega)
      exact ⟨q2, hq2, hkey2.trans hkey, hr2⟩

/-- Within a key group, the ranks assigned by rank(method="first") are
downward closed: every positive rank up to an attained rank is attained. -/
theorem rank_attained_of_le (rows : List (Int × Int)) (e : Nat × (Int × Int))
    (he : e ∈ rows.enum) (r : Nat) (h1 : 1 ≤ r) (hle : r ≤ rankOf rows e) :
    ∃ q ∈ rows.enum, q.2.2 = e.2.2 ∧ rankOf rows q = r :=
  rank_attained_aux rows (rankOf rows e) e he r h1 hle (by omega)

theorem mem_withRank_of_enum (rows : List (Int × Int)) (e : Nat × (Int × Int))
    (he : e ∈ rows.enum) : (e.2.1, e.2.2, rankOf rows e) ∈ withRank rows := by
  rw [withRank_eq]
  exact List.mem_map.mpr ⟨e, he, rfl⟩

/-- If a key occurs on both sides, the rank-based 1:1 merge pairs at least
one of the two given rows: a physical row and an accounting row of the same
key cannot both be left unpaired. -/
theorem pair1to1_covers (fs cs : List (Int × Int)) (pf pc : Nat) (fid cid k : Int)
    (hf : (pf, (fid, k)) ∈ fs.enum) (hc : (pc, (cid, k)) ∈ cs.enum) :
    fid ∈ (pair1to1 fs cs).map (fun p => p.1) ∨
    cid ∈ (pair1to1 fs cs).map (fun p => p.2.1) := by
  rcases Nat.le_total (rankOf fs (pf, (fid, k))) (rankOf cs (pc, (cid, k))) with
    hle | hle
  · obtain ⟨q, hq, hkey, hrq⟩ := rank_attained_of_le cs (pc, (cid, k)) hc
      (rankOf fs (pf, (fid, k))) (one_le_rankOf fs _) hle
    left
    apply List.mem_map.mpr
    refine ⟨(fid, q.2.1, k), ?_, rfl⟩
    unfold pair1to1
    apply List.mem_flatMap.mpr
    refine ⟨(fid, k, rankOf fs (pf, (fid, k))), mem_withRank_of_enum fs _ hf, ?_⟩
    apply List.mem_map.mpr
    refine ⟨(q.2.1, q.2.2, rankOf cs q), ?_, ?_⟩
    · apply List.mem_filter.mpr
      refine ⟨mem_withRank_of_enum cs q hq, ?_⟩
      simp only [decide_eq_true_eq]
      exact ⟨hkey, hrq⟩
    · rw [hkey]
  · obtain ⟨q, hq, hkey, hrq⟩ := rank_attained_of_le fs (pf, (fid, k)) hf
      (rankOf cs (pc, (cid, k))) (one_le_rankOf cs _) hle
    right
    apply List.mem_map.mpr
    refine ⟨(q.2.1, cid, q.2.2), ?_, rfl⟩
    unfold pair1to1
    apply List.mem_flatMap.mpr
    refine ⟨(q.2.1, q.2.2, rankOf fs q), mem_withRank_of_enum fs q hq, ?_⟩
    apply List.mem_map.mpr
    refine ⟨(cid, k, rankOf cs (pc, (cid, k))), ?_, ?_⟩
    · apply List.mem_filter.mpr
      refine ⟨mem_withRank_of_enum cs _ hc, ?_⟩
      simp only [decide_eq_true_eq]
      exact ⟨hkey.symm, hrq.symm⟩
    · rfl

/-! ## The pending sets after a bulk insert -/

/-- A physical row still pending after a bulk insert was pending before it,
and, when its id is positive, was not part of the inserted batch. -/
theorem readPendingFis_bulk (db : DB) (pairRows : List PairRow) (st : String)
    (f2 : FisRec) (h : f2 ∈ readPendingFis (bulk_insert_pairs db pairRows st).2) :
    f2 ∈ readPendingFis db ∧ (0 < f2.id → ∀ r ∈ pairRows, r.idFisico ≠ f2.id) := by
  by_cases hpr : pairRows = []
  · subst hpr
    have hb : bulk_insert_pairs db [] st = (0, db) := by simp [bulk_insert_pairs]
    rw [hb] at h
    exact ⟨h, fun _ r hr => absurd hr (List.not_mem_nil r)⟩
  · simp only [bulk_insert_pairs, if_neg hpr, readPendingFis] at h
    rw [List.mem_filter] at h
    obtain ⟨hmem, hcond⟩ := h
    simp only [Bool.and_eq_true, Bool.not_eq_true'] at hcond
    rcases List.mem_map.mp hmem with ⟨f, hf, hfm⟩
    by_cases hin : f.id ∈ (pairRows.filterMap
        (fun r => if r.idFisico > 0 then some r.idFisico else none))
    · rw [if_pos hin] at hfm
      rw [← hfm] at hcond
      simp at hcond
    · rw [if_neg hin] at hfm
      subst hfm
      constructor
      · unfold readPendingFis
        rw [List.mem_filter]
        refine ⟨hf, ?_⟩
        simp only [Bool.and_eq_true, Bool.not_eq_true']
        refine ⟨hcond.1, ?_⟩
        have hlock := hcond.2
        unfold lockedOn at hlock ⊢
        simp only [List.any_append, Bool.or_eq_false_iff] at hlock
        exact hlock.1
      · intro hpos r hr heq
        apply hin
        rw [List.mem_filterMap]
        refine ⟨r, hr, ?_⟩
        rw [heq, if_pos hpos]

/-- An accounting row still pending after a bulk insert was pending before
it, and was not part of the inserted batch. -/
theorem readPendingCtb_bulk (db : DB) (pairRows : List PairRow) (st : String)
    (c2 : CtbRec) (h : c2 ∈ readPendingCtb (bulk_insert_pairs db pairRows st).2) :
    c2 ∈ readPendingCtb db ∧ ∀ r ∈ pairRows, r.idContabil ≠ c2.id := by
  by_cases hpr : pairRows = []
  · subst hpr
    have hb : bulk_insert_pairs db [] st = (0, db) := by simp [bulk_insert_pairs]
    rw [hb] at h
    exact ⟨h, fun r hr => absurd hr (List.not_mem_nil r)⟩
  · simp only [bulk_insert_pairs, if_neg hpr, readPendingCtb] at h
    rw [List.mem_filter] at h
    obtain ⟨hmem, hcond⟩ := h
    simp only [Bool.and_eq_true, Bool.not_eq_true'] at hcond
    rcases List.mem_map.mp hmem with ⟨c, hc, hcm⟩
    by_cases hin : c.id ∈ pairRows.map (fun r => r.idContabil)
    · rw [if_pos hin] at hcm
      rw [← hcm] at hcond
      simp at hcond
    · rw [if_neg hin] at hcm
      subst hcm
      constructor
      · unfold readPendingCtb
        rw [List.mem_filter]
        refine ⟨hc, ?_⟩
        simp only [Bool.and_eq_true, Bool.not_eq_true']
        refine ⟨hcond.1, ?_⟩
        have hlock := hcond.2
        unfold lockedOn at hlock ⊢
        simp only [List.any_append, Bool.or_eq_false_iff] at hlock
        exact hlock.1
      · intro r hr heq
        apply hin
        rw [List.mem_map]
        exact ⟨r, hr, heq⟩

/-! ## Characterizing one run of the group-key rule -/

theorem run_regra_cnt_of_guard (db : DB)
    (h : ((readPendingFis db).filter (fun f => f.nrbrm.isSome)).map
        (fun f => (f.id, f.nrbrm.getD 0)) = [] ∨
      ((readPendingCtb db).filter (fun c => c.nrbrm.isSome)).filter
        (fun c => c.inc.getD 0 = 0) = []) :
    (run_regra_nrbrm_pai db).1.conciliados = 0 := by
  simp only [run_regra_nrbrm_pai]
  rw [if_pos h]

theorem run_regra_snd_of_guard (db : DB)
    (h : ((readPendingFis db).filter (fun f => f.nrbrm.isSome)).map
        (fun f => (f.id, f.nrbrm.getD 0)) = [] ∨
      ((readPendingCtb db).filter (fun c => c.nrbrm.isSome)).filter
        (fun c => c.inc.getD 0 = 0) = []) :
    (run_regra_nrbrm_pai db).2 = db := by
  simp only [run_regra_nrbrm_pai]
  rw [if_pos h]

theorem run_regra_cnt_of_ne (db : DB) (fs cs : List (Int × Int)) (csR : List CtbRec)
    (hfs : fs = ((readPendingFis db).filter (fun f => f.nrbrm.isSome)).map
      (fun f => (f.id, f.nrbrm.getD 0)))
    (hcsR : csR = ((readPendingCtb db).filter (fun c => c.nrbrm.isSome)).filter
      (fun c => c.inc.getD 0 = 0))
    (hcs : cs = csR.map (fun c => (c.id, c.nrbrm.getD 0)))
    (h1 : fs ≠ []) (h2 : csR ≠ []) :
    (run_regra_nrbrm_pai db).1.conciliados =
      (bulk_insert_pairs db ((pair1to1 fs cs).map
        (fun p => (⟨p.1, p.2.1, p.2.2, 0⟩ : PairRow))) "NRBEM_FIS=NRBEM_CTB").1 := by
  subst hcs hcsR hfs
  simp only [run_regra_nrbrm_pai]
  rw [if_neg (by push_neg; exact ⟨h1, h2⟩)]

theorem run_regra_snd_of_ne (db : DB) (fs cs : List (Int × Int)) (csR : List CtbRec)
    (hfs : fs = ((readPendingFis db).filter (fun f => f.nrbrm.isSome)).map
      (fun f => (f.id, f.nrbrm.getD 0)))
    (hcsR : csR = ((readPendingCtb db).filter (fun c => c.nrbrm.isSome)).filter
      (fun c => c.inc.getD 0 = 0))
    (hcs : cs = csR.map (fun c => (c.id, c.nrbrm.getD 0)))
    (h1 : fs ≠ []) (h2 : csR ≠ []) :
    (run_regra_nrbrm_pai db).2 =
      (bulk_insert_pairs db ((pair1to1 fs cs).map
        (fun p => (⟨p.1, p.2.1, p.2.2, 0⟩ : PairRow))) "NRBEM_FIS=NRBEM_CTB").2 := by
  subst hcs hcsR hfs
  simp only [run_regra_nrbrm_pai]
  rw [if_neg (by push_neg; exact ⟨h1, h2⟩)]

theorem run_cnt_zero_of_no_pairs (d : DB)
    (hnil : pair1to1 (((readPendingFis d).filter (fun f => f.nrbrm.isSome)).map
        (fun f => (f.id, f.nrbrm.getD 0)))
      ((((readPendingCtb d).filter (fun c => c.nrbrm.isSome)).filter
          (fun c => c.inc.getD 0 = 0)).map (fun c => (c.id, c.nrbrm.getD 0))) = []) :
    (run_regra_nrbrm_pai d).1.conciliados = 0 := by
  by_cases hg : ((readPendingFis d).filter (fun f => f.nrbrm.isSome)).map
      (fun f => (f.id, f.nrbrm.getD 0)) = [] ∨
      ((readPendingCtb d).filter (fun c => c.nrbrm.isSome)).filter
        (fun c => c.inc.getD 0 = 0) = []
  · exact run_regra_cnt_of_guard d hg
  · push_neg at hg
    rw [run_regra_cnt_of_ne d _ _ _ rfl rfl rfl hg.1 hg.2, hnil]
    simp [bulk_insert_pairs]

/-- **C5** (amended): when every physical record has a positive id, the
group-key rule is idempotent: running `run_regra_nrbrm_pai` on the state
left by a previous run of the same rule creates zero new pairs, because ids
locked (and FRAG-marked) by the first run are excluded from the pending
frames of the second. -/
theorem rerun_rule_amended (db : DB) (hpos : ∀ f ∈ db.fisico, 0 < f.id) :
    (run_regra_nrbrm_pai (run_regra_nrbrm_pai db).2).1.conciliados = 0 := by
  by_cases hg : ((readPendingFis db).filter (fun f => f.nrbrm.isSome)).map
      (fun f => (f.id, f.nrbrm.getD 0)) = [] ∨
      ((readPendingCtb db).filter (fun c => c.nrbrm.isSome)).filter
        (fun c => c.inc.getD 0 = 0) = []
  · rw [run_regra_snd_of_guard db hg]
    exact run_regra_cnt_of_guard db hg
  · push_neg at hg
    rw [run_regra_snd_of_ne db _ _ _ rfl rfl rfl hg.1 hg.2]
    apply run_cnt_zero_of_no_pairs
    apply List.eq_nil_iff_forall_not_mem.mpr
    intro x hx
    unfold pair1to1 at hx
    rcases List.mem_flatMap.mp hx with ⟨fe, hfewr, hmem2⟩
    rcases List.mem_map.mp hmem2 with ⟨ce, hcef, _⟩
    have hcewr := List.mem_of_mem_filter hcef
    have hkeyeq : ce.2.1 = fe.2.1 := by
      have h3 := (List.mem_filter.mp hcef).2
      simp only [decide_eq_true_eq] at h3
      exact h3.1
    rw [withRank_eq] at hfewr hcewr
    rcases List.mem_map.mp hfewr with ⟨ef, hef, heqf⟩
    rcases List.mem_map.mp hcewr with ⟨ec, hec, heqc⟩
    have hfe2 := mem_of_mem_enum2 _ ef.1 ef.2 hef
    have hce2 := mem_of_mem_enum2 _ ec.1 ec.2 hec
    rcases List.mem_map.mp hfe2 with ⟨f2, hf2, hf2eq⟩
    rcases List.mem_filter.mp hf2 with ⟨hf2p, hf2some⟩
    obtain ⟨hf2pend, hf2un⟩ := readPendingFis_bulk db _ _ f2 hf2p
    rcases List.mem_map.mp hce2 with ⟨c2, hc2, hc2eq⟩
    rcases List.mem_filter.mp hc2 with ⟨hc2a, hc2inc⟩
    rcases List.mem_filter.mp hc2a with ⟨hc2p, hc2some⟩
    obtain ⟨hc2pend, hc2un⟩ := readPendingCtb_bulk db _ _ c2 hc2p
    have hfmem : (f2.id, f2.nrbrm.getD 0) ∈
        ((readPendingFis db).filter (fun f => f.nrbrm.isSome)).map
          (fun f => (f.id, f.nrbrm.getD 0)) :=
      List.mem_map.mpr ⟨f2, List.mem_filter.mpr ⟨hf2pend, hf2some⟩, rfl⟩
    have hcmem : (c2.id, c2.nrbrm.getD 0) ∈
        ((((readPendingCtb db).filter (fun c => c.nrbrm.isSome)).filter
          (fun c => c.inc.getD 0 = 0)).map (fun c => (c.id, c.nrbrm.getD 0))) :=
      List.mem_map.mpr ⟨c2, List.mem_filter.mpr
        ⟨List.mem_filter.mpr ⟨hc2pend, hc2some⟩, hc2inc⟩, rfl⟩
    have hf2k : f2.nrbrm.getD 0 = fe.2.1 := by
      have h4 : ef.2.2 = fe.2.1 := congrArg (fun x => x.2.1) heqf
      have h5 : f2.nrbrm.getD 0 = ef.2.2 := congrArg (fun x => x.2) hf2eq
      exact h5.trans h4
    have hc2k : c2.nrbrm.getD 0 = ce.2.1 := by
      have h4 : ec.2.2 = ce.2.1 := congrArg (fun x => x.2.1) heqc
      have h5 : c2.nrbrm.getD 0 = ec.2.2 := congrArg (fun x => x.2) hc2eq
      exact h5.trans h4
    have hkk : c2.nrbrm.getD 0 = f2.nrbrm.getD 0 :=
      hc2k.trans (hkeyeq.trans hf2k.symm)
    obtain ⟨pf, hpf⟩ := exists_enum_of_mem _ _ hfmem
    have hcmem2 : ((c2.id, f2.nrbrm.getD 0) : Int × Int) ∈
        ((((readPendingCtb db).filter (fun c => c.nrbrm.isSome)).filter
          (fun c => c.inc.getD 0 = 0)).map (fun c => (c.id, c.nrbrm.getD 0))) := by
      rw [← hkk]
      exact hcmem
    obtain ⟨pc, hpc⟩ := exists_enum_of_mem _ _ hcmem2
    rcases pair1to1_covers _ _ pf pc f2.id c2.id (f2.nrbrm.getD 0) hpf hpc with
      hcase | hcase
    · rcases List.mem_map.mp hcase with ⟨p, hp, hpid⟩
      have hf2db : f2 ∈ db.fisico := List.mem_of_mem_filter hf2pend
      exact hf2un (hpos f2 hf2db) ⟨p.1, p.2.1, p.2.2, 0⟩
        (List.mem_map.mpr ⟨p, hp, rfl⟩) hpid
    · rcases List.mem_map.mp hcase with ⟨p, hp, hpid⟩
      exact hc2un ⟨p.1, p.2.1, p.2.2, 0⟩ (List.mem_map.mpr ⟨p, hp, rfl⟩) hpid

/-- Witness for C5: a state with one physical and one accounting record
sharing group key 100; the first run pairs them, the second finds nothing. -/
theorem rerun_rule_amended_witness :
    (∀ f ∈ rerunDB.fisico, 0 < f.id) ∧
    (run_regra_nrbrm_pai (run_regra_nrbrm_pai rerunDB).2).1.conciliados = 0 :=
  ⟨by decide, rerun_rule_amended rerunDB (by decide)⟩

end EVS
